import Mathlib

/-! # Connect Four: bitboard position and negamax solver

A shallow embedding of `src/position.cpp` and `src/solver.cpp`.

* `uint64_t` values are natural numbers below `2^64`; every operation that can
  leave that range in C++ (`<<`, `+`, `-`, `*`) is reduced modulo `2^64`.
* `unsigned int moves` is a natural number, incremented modulo `2^32`;
  `nbMoves()` converts it to `int` the way the C++ conversion does.
* `int` arithmetic of the solver is done in `Int`; `/` of C++ truncates
  towards zero and is `Int.tdiv` here.
* A call of the solver ends in an `Outcome`: a returned value, the end of the
  function body reached without any `return` statement, or a failed `assert`.
-/

namespace ConnectFour

/-! ## Machine words -/

/-- The modulus of `uint64_t` arithmetic. -/
def U64 : Nat := 2 ^ 64

/-- The modulus of `unsigned int` arithmetic. -/
def U32 : Nat := 2 ^ 32

/-- Left shift of a `uint64_t`: bits shifted past bit 63 are lost. -/
def shl (x n : Nat) : Nat := (x <<< n) % U64

/-- Bitwise complement of a `uint64_t`. -/
def not64 (x : Nat) : Nat := (U64 - 1) ^^^ (x % U64)

/-- Subtraction of `uint64_t` values, wrapping below zero. -/
def sub64 (x y : Nat) : Nat := (x + (U64 - y % U64)) % U64

/-! ## `position.cpp` -/

/-- Number of rows, `position::HEIGHT`. -/
def HEIGHT : Nat := 6

/-- Number of columns, `position::WIDTH`. -/
def WIDTH : Nat := 7

/-- The function `bottom(width, height)`: a bitmask with a one in the bottom
slot of each of the first `width` columns. -/
def bottom : Nat → Nat → Nat
  | 0, _ => 0
  | width + 1, height => bottom width height ||| shl 1 (width * (height + 1))

/-- The class `position`: its three data members. -/
structure position where
  current_position : Nat
  mask : Nat
  moves : Nat
  deriving DecidableEq, Repr

/-- The default constructor `position()`: the empty board. -/
def position.empty : position := ⟨0, 0, 0⟩

/-- The static bitmap `bottom_mask`. -/
def bottom_mask : Nat := bottom WIDTH HEIGHT

/-- The static bitmap `board_mask`. -/
def board_mask : Nat := (bottom_mask * ((1 <<< HEIGHT) - 1)) % U64

/-- The function `top_mask_col(col)`: the top cell of a column. -/
def top_mask_col (col : Nat) : Nat := shl 1 ((HEIGHT - 1) + col * (HEIGHT + 1))

/-- The function `bottom_mask_col(col)`: the bottom cell of a column. -/
def bottom_mask_col (col : Nat) : Nat := shl 1 (col * (HEIGHT + 1))

/-- The function `column_mask(col)`: all the cells of a column. -/
def column_mask (col : Nat) : Nat := shl ((1 <<< HEIGHT) - 1) (col * (HEIGHT + 1))

/-- The function `compute_winning_position(position, mask)`: the free cells of
the board that complete an alignment of four for the stones `pos`. -/
def compute_winning_position (pos mask : Nat) : Nat :=
  -- vertical
  let r := shl pos 1 &&& shl pos 2 &&& shl pos 3
  -- horizontal
  let p := shl pos (HEIGHT + 1) &&& shl pos (2 * (HEIGHT + 1))
  let r := r ||| (p &&& shl pos (3 * (HEIGHT + 1)))
  let r := r ||| (p &&& (pos >>> (HEIGHT + 1)))
  let p := (pos >>> (HEIGHT + 1)) &&& (pos >>> (2 * (HEIGHT + 1)))
  let r := r ||| (p &&& shl pos (HEIGHT + 1))
  let r := r ||| (p &&& (pos >>> (3 * (HEIGHT + 1))))
  -- diagonal 1
  let p := shl pos HEIGHT &&& shl pos (2 * HEIGHT)
  let r := r ||| (p &&& shl pos (3 * HEIGHT))
  let r := r ||| (p &&& (pos >>> HEIGHT))
  let p := (pos >>> HEIGHT) &&& (pos >>> (2 * HEIGHT))
  let r := r ||| (p &&& shl pos HEIGHT)
  let r := r ||| (p &&& (pos >>> (3 * HEIGHT)))
  -- diagonal 2
  let p := shl pos (HEIGHT + 2) &&& shl pos (2 * (HEIGHT + 2))
  let r := r ||| (p &&& shl pos (3 * (HEIGHT + 2)))
  let r := r ||| (p &&& (pos >>> (HEIGHT + 2)))
  let p := (pos >>> (HEIGHT + 2)) &&& (pos >>> (2 * (HEIGHT + 2)))
  let r := r ||| (p &&& shl pos (HEIGHT + 2))
  let r := r ||| (p &&& (pos >>> (3 * (HEIGHT + 2))))
  r &&& (board_mask ^^^ mask)

/-- The method `winning_position()`. -/
def winning_position (P : position) : Nat :=
  compute_winning_position P.current_position P.mask

/-- The method `opponent_winning_position()`. -/
def opponent_winning_position (P : position) : Nat :=
  compute_winning_position (P.current_position ^^^ P.mask) P.mask

/-- The method `possible()`: the next possible valid moves. -/
def possible (P : position) : Nat := ((P.mask + bottom_mask) % U64) &&& board_mask

/-- The function `popcount(m)`: the loop `for (c = 0; m; c++) m &= m - 1;`.
The loop runs at most 64 times, as every round clears one bit. -/
def popcountLoop : Nat → Nat → Nat → Nat
  | 0, _, c => c
  | fuel + 1, m, c => if m = 0 then c else popcountLoop fuel (m &&& sub64 m 1) ((c + 1) % U32)

/-- The function `popcount(m)`. -/
def popcount (m : Nat) : Nat := popcountLoop 64 m 0

/-- The method `play(uint64_t move)`. -/
def play (P : position) (move : Nat) : position :=
  { current_position := P.current_position ^^^ P.mask
    mask := P.mask ||| move
    moves := (P.moves + 1) % U32 }

/-- The method `canWinNext()`. -/
def canWinNext (P : position) : Bool := winning_position P &&& possible P != 0

/-- The method `nbMoves()`: `moves` converted from `unsigned int` to `int`. -/
def nbMoves (P : position) : Int :=
  if P.moves % U32 < 2 ^ 31 then (P.moves % U32 : Nat) else (P.moves % U32 : Nat) - (U32 : Int)

/-- The method `key()`. -/
def key (P : position) : Nat := (P.current_position + P.mask) % U64

/-- The method `possibleNonLosingMoves()`; its `assert(!canWinNext())` is a
precondition of the function. -/
def possibleNonLosingMoves (P : position) : Nat :=
  let possible_mask := possible P
  let opponent_win := opponent_winning_position P
  let forced_moves := possible_mask &&& opponent_win
  if forced_moves != 0 then
    if forced_moves &&& sub64 forced_moves 1 != 0 then 0
    else forced_moves &&& not64 (opponent_win >>> 1)
  else possible_mask &&& not64 (opponent_win >>> 1)

/-- The method `moveScore(move)`. -/
def moveScore (P : position) (move : Nat) : Nat :=
  popcount (compute_winning_position (P.current_position ||| move) P.mask)

/-- The method `playCol(col)`. -/
def playCol (P : position) (col : Nat) : position :=
  play P (((P.mask + bottom_mask_col col) % U64) &&& column_mask col)

/-- The method `canPlay(col)`. -/
def canPlay (P : position) (col : Nat) : Bool := P.mask &&& top_mask_col col == 0

/-- The method `isWinningMove(col)`. -/
def isWinningMove (P : position) (col : Nat) : Bool :=
  winning_position P &&& possible P &&& column_mask col != 0

/-- The loop of `play(std::string seq)` from index `i` on, over the characters
that are left: the number of played moves and the position reached. -/
def playSeqFrom : List Char → Nat → position → Nat × position
  | [], i, P => (i, P)
  | ch :: rest, i, P =>
    let col : Int := (ch.toNat : Int) - ('1'.toNat : Int)
    if col < 0 ∨ col ≥ (WIDTH : Int) ∨ !canPlay P col.toNat ∨ isWinningMove P col.toNat then (i, P)
    else playSeqFrom rest (i + 1) (playCol P col.toNat)

/-- The method `play(std::string seq)`: the returned count and the position
the object is left in. -/
def playSeq (P : position) (seq : String) : Nat × position := playSeqFrom seq.toList 0 P

/-! ## `solver.cpp` -/

/-- How a call of `solve` or `negamax` ends. -/
inductive Outcome where
  /-- A `return` statement was executed with this value. -/
  | value (v : Int)
  /-- Control reached the closing brace of the function without a `return`. -/
  | noReturn
  /-- An `assert` failed. -/
  | assertFailed
  /-- The recursion went deeper than the fuel given to the model. -/
  | outOfFuel
  deriving DecidableEq, Repr

/-- The score of an immediate win, `(WIDTH*HEIGHT + 1 - nbMoves) / 2`. -/
def winScore (P : position) : Int := Int.tdiv ((WIDTH * HEIGHT : Nat) + 1 - nbMoves P) 2

/-- The exploration loop of `negamax` over the columns that are left, given
the function that scores a child position: either the loop returns, or it
ends with the final `alpha`. -/
def exploreLoop (child : position → Int → Int → Outcome) (P : position) (beta : Int) :
    List Nat → Int → Outcome ⊕ Int
  | [], alpha => .inr alpha
  | move :: rest, alpha =>
    if !canPlay P move then exploreLoop child P beta rest alpha
    else
      match child (playCol P move) (-beta) (-alpha) with
      | .value v =>
        let score := -v
        if score ≥ beta then .inl (.value score)
        else exploreLoop child P beta rest (if score > alpha then score else alpha)
      | other => .inl other

/-- The method `negamax(P, alpha, beta)`, with a bound on the recursion depth.
The function body ends after the exploration loop without a `return`
statement: a call that gets there yields `noReturn`. The counter `nodeCount`
is left out, as no result depends on it. -/
def negamaxFuel : Nat → position → Int → Int → Outcome
  | 0, _, _, _ => .outOfFuel
  | fuel + 1, P, alpha, beta =>
    if (List.range WIDTH).any (fun x => canPlay P x && isWinningMove P x) then
      .value (winScore P)
    else if ¬ alpha < beta then .assertFailed
    else if canWinNext P then .assertFailed
    else if nbMoves P ≥ (WIDTH * HEIGHT : Nat) - 2 then .value 0
    else
      let min : Int := Int.tdiv (-((WIDTH * HEIGHT : Nat) - 2 - nbMoves P)) 2
      let clampLow : Outcome ⊕ Int :=
        if alpha < min then (if min ≥ beta then .inl (.value min) else .inr min) else .inr alpha
      match clampLow with
      | .inl out => out
      | .inr alpha =>
        let max : Int := Int.tdiv ((WIDTH * HEIGHT : Nat) - 1 - nbMoves P) 2
        let clampHigh : Outcome ⊕ Int :=
          if beta > max then (if alpha ≥ max then .inl (.value max) else .inr max) else .inr beta
        match clampHigh with
        | .inl out => out
        | .inr beta =>
          match exploreLoop (negamaxFuel fuel) P beta (List.range WIDTH) alpha with
          | .inl out => out
          | .inr _ => .noReturn

/-- The method `negamax(P, alpha, beta)`: each recursive call is on a position
with one more stone and no call recurses from `WIDTH*HEIGHT - 2` stones on. -/
def negamax (P : position) (alpha beta : Int) : Outcome :=
  negamaxFuel (WIDTH * HEIGHT + 1 - P.moves) P alpha beta

/-- The body of `solve(P, weak)` over the search function it delegates to. -/
def solveWith (search : position → Int → Int → Outcome) (P : position) (weak : Bool) : Outcome :=
  if canWinNext P then .value (winScore P)
  else
    let min : Int := Int.tdiv (-((WIDTH * HEIGHT : Nat) - nbMoves P)) 2
    let max : Int := Int.tdiv ((WIDTH * HEIGHT : Nat) + 1 - nbMoves P) 2
    if weak then search P (-1) 1 else search P min max

/-- The method `solve(P, weak)`. -/
def solve (P : position) (weak : Bool) : Outcome := solveWith negamax P weak

/-! ## Reachable positions and their shape -/

/-- The bits of column `c` of a bitboard: the `HEIGHT + 1` bits from bit
`c * (HEIGHT + 1)` on, as a number below `2 ^ (HEIGHT + 1)`. -/
def colBits (x c : Nat) : Nat := (x >>> (c * (HEIGHT + 1))) % 2 ^ (HEIGHT + 1)

/-- The number of stones in column `c` of the bitboard `mask`. -/
def height (mask c : Nat) : Nat :=
  ((List.range HEIGHT).filter fun r => mask.testBit (r + c * (HEIGHT + 1))).length

/-- The positions reachable from the empty board by `playCol` on playable
columns. -/
inductive Reachable : position → Prop
  | empty : Reachable position.empty
  | step {P : position} (col : Nat) :
      Reachable P → col < WIDTH → canPlay P col = true → Reachable (playCol P col)

/-- The shape of a reachable position: the stones of every column are stacked
from the bottom row without a gap and leave the guard row free, the stones of
the player to move are stones of the board, and `moves` counts the stones. -/
structure WellFormed (P : position) : Prop where
  mask_lt : P.mask < 2 ^ (WIDTH * (HEIGHT + 1))
  cols : ∀ c, c < WIDTH → colBits P.mask c = 2 ^ height P.mask c - 1
  subset : P.current_position &&& P.mask = P.current_position
  moves_eq : P.moves = ((List.range WIDTH).map (height P.mask)).sum

/-! ## Replaying a move sequence -/

/-- The column named by a character of a move sequence, `seq[i] - '1'`, when
that difference is not negative. -/
def colOfChar (ch : Char) : Nat := ch.toNat - '1'.toNat

/-- A character is a valid move in `P`: it is a digit `'1'`..`'7'`, the column
it names is not full, and playing there does not win at once. -/
def validMove (P : position) (ch : Char) : Bool :=
  decide ('1'.toNat ≤ ch.toNat ∧ ch.toNat ≤ '7'.toNat) && canPlay P (colOfChar ch)
    && !isWinningMove P (colOfChar ch)

/-- The position after `playCol` of the columns named by the characters. -/
def playChars (P : position) (cs : List Char) : position :=
  cs.foldl (fun Q ch => playCol Q (colOfChar ch)) P

/-- Every character of `cs` is a valid move at the moment it is processed,
starting from `P`. -/
def allValid : position → List Char → Bool
  | _, [] => true
  | P, ch :: rest => validMove P ch && allValid (playCol P (colOfChar ch)) rest

/-- The number of leading characters of `cs` that are valid moves, each at
the moment it is processed, starting from `P`. -/
def validLen : position → List Char → Nat
  | _, [] => 0
  | P, ch :: rest => if validMove P ch then validLen (playCol P (colOfChar ch)) rest + 1 else 0

/-! ## The value of the game -/

/-- The columns that can be played in `P`. -/
def playableCols (P : position) : List Nat := (List.range WIDTH).filter (canPlay P)

/-- The game value `V(P)` under optimal play, by the rules of the game:
the win score `(WIDTH*HEIGHT + 1 - nbMoves) / 2` if the side to move has an
immediately winning column, `0` if the board is full, and otherwise the
maximum over the playable columns `c` of `-V(P after playCol(c))`. The first
argument bounds the depth of the recursion. -/
def gameValueFuel : Nat → position → Int
  | 0, _ => 0
  | fuel + 1, P =>
    if (playableCols P).any (isWinningMove P) then ((WIDTH * HEIGHT : Nat) + 1 - nbMoves P) / 2
    else
      match (playableCols P).map (fun c => - gameValueFuel fuel (playCol P c)) with
      | [] => 0
      | v :: vs => vs.foldl max v

/-- The game value of a position: no line of play is longer than the number
of free cells. -/
def gameValue (P : position) : Int := gameValueFuel (WIDTH * HEIGHT + 1 - P.moves) P

/-! ## The brute-force scan for an alignment -/

/-- The bitboard `p` has a stone at the bit index `j`; a negative index has none. -/
def stone (p : Nat) (j : Int) : Prop := 0 ≤ j ∧ p.testBit j.toNat = true

/-- The four windows of four cells through a cell along one line, in the order
of `compute_winning_position`: `B t` says that the cell `t` steps away along
the line has a stone. -/
def windows (B : Int → Prop) : Prop :=
  (B (-1) ∧ B (-2) ∧ B (-3)) ∨ (B (-1) ∧ B (-2) ∧ B 1) ∨ (B 1 ∧ B 2 ∧ B (-1)) ∨ (B 1 ∧ B 2 ∧ B 3)

/-- A stone of `stones` lies in column `c` and row `r` of the board; a cell
outside of the board holds no stone. -/
def cellOf (stones : Nat) (c r : Int) : Bool :=
  decide (0 ≤ c ∧ c < (WIDTH : Int) ∧ 0 ≤ r ∧ r < (HEIGHT : Int))
    && stones.testBit (r + c * ((HEIGHT : Int) + 1)).toNat

/-- The scan of the line through `(c, r)` in the direction `(dc, dr)`: one of
the four windows of four contiguous cells of the line that contain `(c, r)`,
the window starting `s` cells before it, holds stones of `stones` only. -/
def lineHasFour (stones : Nat) (c r dc dr : Int) : Bool :=
  [0, -1, -2, -3].any fun s => [0, 1, 2, 3].all fun k =>
    cellOf stones (c + (s + k) * dc) (r + (s + k) * dr)

/-- The brute-force scan of the vertical, the horizontal and the two diagonal
lines through the cell `(c, r)`. -/
def scanWin (stones : Nat) (c r : Int) : Bool :=
  lineHasFour stones c r 0 1 || lineHasFour stones c r 1 0
    || lineHasFour stones c r 1 (-1) || lineHasFour stones c r 1 1

/-- The row of the lowest empty cell of column `col`: the number of occupied
cells met from the bottom row up before the first empty one. -/
def lowestEmpty (mask col : Nat) : Nat :=
  ((List.range HEIGHT).takeWhile fun r => mask.testBit (r + col * (HEIGHT + 1))).length

/-! ## Landing cells and threats -/

/-- The bit index of the landing cell of column `c`: its lowest empty cell. -/
def landingCell (P : position) (c : Nat) : Nat := lowestEmpty P.mask c + c * (HEIGHT + 1)

/-- The opponent has an immediately winning cell in the playable column `c`. -/
def opponentWinsAt (P : position) (c : Nat) : Bool :=
  canPlay P c && (opponent_winning_position P).testBit (landingCell P c)

/-! ## The steps of `negamax` -/

/-- The part of `negamax` before its exploration loop: either the function
returns or fails an assertion there, or it enters the loop with the clamped
window `(alpha, beta)`. -/
def negamaxPre (P : position) (alpha beta : Int) : Outcome ⊕ (Int × Int) :=
  if (List.range WIDTH).any (fun x => canPlay P x && isWinningMove P x) then
    .inl (.value (winScore P))
  else if ¬ alpha < beta then .inl .assertFailed
  else if canWinNext P then .inl .assertFailed
  else if nbMoves P ≥ (WIDTH * HEIGHT : Nat) - 2 then .inl (.value 0)
  else
    let min : Int := Int.tdiv (-((WIDTH * HEIGHT : Nat) - 2 - nbMoves P)) 2
    let max : Int := Int.tdiv ((WIDTH * HEIGHT : Nat) - 1 - nbMoves P) 2
    if alpha < min then
      if min ≥ beta then .inl (.value min)
      else if beta > max then (if min ≥ max then .inl (.value max) else .inr (min, max))
      else .inr (min, beta)
    else if beta > max then (if alpha ≥ max then .inl (.value max) else .inr (alpha, max))
    else .inr (alpha, beta)

/-! ## Counting bits -/

/-- The number of bits set among the 64 bits of a `uint64_t`. -/
def bitCount (x : Nat) : Nat := (List.range 64).countP (fun i => x.testBit i)

/-! ## The invariant of the data model -/

/-- The invariant of the data model: no stone of the player to move outside
of `mask`, no bit of `mask` in the guard row or beyond the columns of the
board, and `moves` is the population count of `mask`. -/
def Inv (P : position) : Prop :=
  P.current_position &&& not64 P.mask = 0
  ∧ (∀ n, P.mask.testBit n = true → n % (HEIGHT + 1) ≠ HEIGHT ∧ n < WIDTH * (HEIGHT + 1))
  ∧ P.moves = popcount P.mask

/-! ## Winning cells -/

/-- The cells of the board, by column and row. -/
def boardCells : List (Nat × Nat) :=
  (List.range WIDTH).flatMap fun c => (List.range HEIGHT).map fun r => (c, r)

/-- The number of cells of the board that are empty in `occupied` and where
one more stone of `stones` completes an alignment of four, as found by the
brute-force scan of the four lines through the cell. -/
def winningCellCount (stones occupied : Nat) : Nat :=
  boardCells.countP fun cell =>
    !occupied.testBit (cell.2 + cell.1 * (HEIGHT + 1))
      && scanWin (stones ||| 2 ^ (cell.2 + cell.1 * (HEIGHT + 1))) (cell.1 : Int) (cell.2 : Int)

/-- The alignments that `compute_winning_position` looks for through the bit `i`. -/
def aligned (pos i : Nat) : Prop :=
  (stone pos ((i : Int) - 1) ∧ stone pos ((i : Int) - 2) ∧ stone pos ((i : Int) - 3))
    ∨ windows (fun t => stone pos ((i : Int) + t * 7))
    ∨ windows (fun t => stone pos ((i : Int) + t * 6))
    ∨ windows (fun t => stone pos ((i : Int) + t * 8))

/-! ## Properties -/

/-! ### Bits and columns -/

theorem testBit_colBits (x c r : Nat) :
    (colBits x c).testBit r = (decide (r < 7) && x.testBit (c * 7 + r)) := by
  show ((x >>> (c * 7)) % 2 ^ 7).testBit r = _
  rw [Nat.testBit_mod_two_pow, Nat.testBit_shiftRight]

theorem testBit_eq_colBits (x n : Nat) :
    x.testBit n = (colBits x (n / 7)).testBit (n % 7) := by
  rw [testBit_colBits]
  have h : n % 7 < 7 := Nat.mod_lt _ (by norm_num)
  have h2 : n / 7 * 7 + n % 7 = n := by omega
  simp [h, h2]

theorem colBits_eq_div (x c : Nat) : colBits x c = x / 128 ^ c % 128 := by
  unfold colBits HEIGHT
  rw [Nat.shiftRight_eq_div_pow, Nat.pow_mul']
  norm_num

theorem height_le (mask c : Nat) : height mask c ≤ 6 := by
  unfold height
  exact (List.length_filter_le _ _).trans (by simp [HEIGHT])

theorem height_of_colBits {mask c k : Nat} (hk : k ≤ 6) (h : colBits mask c = 2 ^ k - 1) :
    height mask c = k := by
  have key : ∀ r, r < 6 → mask.testBit (r + c * 7) = decide (r < k) := by
    intro r hr
    have := testBit_colBits mask c r
    rw [h, Nat.testBit_two_pow_sub_one] at this
    rw [Nat.add_comm, this]
    simp [show r < 7 by omega]
  unfold height
  simp only [HEIGHT]
  have e : (List.range 6).filter (fun r => mask.testBit (r + c * (6 + 1)))
      = (List.range 6).filter (fun r => decide (r < k)) := by
    apply List.filter_congr
    intro r hr
    exact key r (List.mem_range.mp hr)
  rw [e]
  interval_cases k <;> rfl

/-- In a well-formed position the cell `n` is occupied iff it lies below the height of its column. -/
theorem WellFormed.testBit_mask {P : position} (wf : WellFormed P) (n : Nat) :
    P.mask.testBit n = decide (n < 49 ∧ n % 7 < height P.mask (n / 7)) := by
  by_cases hn : n < 49
  · have hc : n / 7 < WIDTH := by unfold WIDTH; omega
    rw [testBit_eq_colBits, wf.cols _ hc, Nat.testBit_two_pow_sub_one]
    simp [hn]
  · have : P.mask < 2 ^ n := lt_of_lt_of_le wf.mask_lt
      (Nat.pow_le_pow_right (by norm_num) (by simp [WIDTH, HEIGHT]; omega))
    rw [Nat.testBit_lt_two_pow this]
    simp [hn]

theorem WellFormed.testBit_current {P : position} (wf : WellFormed P) {n : Nat}
    (h : P.current_position.testBit n = true) : P.mask.testBit n = true := by
  have := congrArg (fun x => x.testBit n) wf.subset
  simp only [Nat.testBit_and] at this
  rw [h] at this
  simpa using this

theorem eq_of_colBits {x y : Nat} (h : ∀ c, colBits x c = colBits y c) : x = y := by
  apply Nat.eq_of_testBit_eq
  intro n
  rw [testBit_eq_colBits x, testBit_eq_colBits y, h]

theorem colBits_lt (x c : Nat) : colBits x c < 128 := by
  unfold colBits HEIGHT
  exact Nat.mod_lt _ (by norm_num)

theorem colBits_and (x y c : Nat) : colBits (x &&& y) c = colBits x c &&& colBits y c := by
  apply Nat.eq_of_testBit_eq
  intro r
  simp only [testBit_colBits, Nat.testBit_and]
  cases decide (r < 7) <;> simp

theorem colBits_or (x y c : Nat) : colBits (x ||| y) c = colBits x c ||| colBits y c := by
  apply Nat.eq_of_testBit_eq
  intro r
  simp only [testBit_colBits, Nat.testBit_or]
  cases decide (r < 7) <;> simp

theorem colBits_xor (x y c : Nat) : colBits (x ^^^ y) c = colBits x c ^^^ colBits y c := by
  apply Nat.eq_of_testBit_eq
  intro r
  simp only [testBit_colBits, Nat.testBit_xor]
  cases decide (r < 7) <;> simp

/-! ### The static bitmaps -/

theorem shl_one {n : Nat} (h : n < 64) : shl 1 n = 2 ^ n := by
  unfold shl U64
  rw [Nat.one_shiftLeft]
  exact Nat.mod_eq_of_lt (Nat.pow_lt_pow_right (by norm_num) h)

theorem testBit_shl (x n j : Nat) :
    (shl x n).testBit j = (decide (j < 64) && (decide (n ≤ j) && x.testBit (j - n))) := by
  unfold shl U64
  rw [Nat.testBit_mod_two_pow, Nat.testBit_shiftLeft]

theorem bottom_mask_eq : bottom_mask = 4432676798593 := by decide
theorem board_mask_eq : board_mask = 279258638311359 := by decide

theorem top_mask_col_eq {col : Nat} (h : col < WIDTH) : top_mask_col col = 2 ^ (col * 7 + 5) := by
  unfold top_mask_col HEIGHT
  unfold WIDTH at h
  rw [shl_one (by omega)]
  congr 1; omega

theorem bottom_mask_col_eq {col : Nat} (h : col < WIDTH) : bottom_mask_col col = 2 ^ (col * 7) := by
  unfold bottom_mask_col HEIGHT
  unfold WIDTH at h
  rw [shl_one (by omega)]

theorem testBit_column_mask (col n : Nat) (h : col < WIDTH) :
    (column_mask col).testBit n = decide (col * 7 ≤ n ∧ n < col * 7 + 6) := by
  unfold column_mask HEIGHT
  unfold WIDTH at h
  rw [testBit_shl]
  show (decide (n < 64) && (decide (col * 7 ≤ n) && (2 ^ 6 - 1).testBit (n - col * 7))) = _
  rw [Nat.testBit_two_pow_sub_one]
  by_cases h1 : col * 7 ≤ n <;> by_cases h2 : n < col * 7 + 6 <;> simp [h1, h2] <;> omega

theorem testBit_board_mask (n : Nat) :
    board_mask.testBit n = decide (n < 49 ∧ n % 7 < 6) := by
  rw [board_mask_eq]
  by_cases hn : n < 49
  · interval_cases n <;> rfl
  · rw [Nat.testBit_lt_two_pow]
    · simp [hn]
    · exact lt_of_lt_of_le (by norm_num : 279258638311359 < 2 ^ 49)
        (Nat.pow_le_pow_right (by norm_num) (by omega))

theorem and_two_pow_eq_zero (x k : Nat) : (x &&& 2 ^ k == 0) = !x.testBit k := by
  rw [Nat.and_two_pow]
  cases x.testBit k <;> simp

theorem canPlay_eq {P : position} {col : Nat} (h : col < WIDTH) :
    canPlay P col = !P.mask.testBit (col * 7 + 5) := by
  unfold canPlay
  rw [top_mask_col_eq h, and_two_pow_eq_zero]

theorem WellFormed.canPlay_iff {P : position} (wf : WellFormed P) {col : Nat} (h : col < WIDTH) :
    canPlay P col = true ↔ height P.mask col < 6 := by
  rw [canPlay_eq h, wf.testBit_mask]
  unfold WIDTH at h
  have e1 : (col * 7 + 5) / 7 = col := by omega
  have e2 : (col * 7 + 5) % 7 = 5 := by omega
  have := height_le P.mask col
  rw [e1, e2]
  simp
  omega


/-- Adding the bottom cell of a column to a board whose guard bits are free
increments that column and leaves the carry inside it. -/
theorem colBits_add_bottom_col {mask col : Nat} (hm : mask < 2 ^ 49) (hc : col < 7)
    (h : colBits mask col < 127) :
    colBits ((mask + 2 ^ (col * 7)) % 2 ^ 64) col = colBits mask col + 1 := by
  rw [colBits_eq_div] at h ⊢
  rw [colBits_eq_div]
  interval_cases col <;> norm_num at h ⊢ <;> omega

theorem colBits_add_bottom_mask {mask c : Nat} (hm : mask < 2 ^ 49) (hc : c < 7)
    (h : ∀ c', c' < 7 → colBits mask c' < 127) :
    colBits ((mask + 4432676798593) % 2 ^ 64) c = colBits mask c + 1 := by
  have h0 := h 0 (by norm_num)
  have h1 := h 1 (by norm_num)
  have h2 := h 2 (by norm_num)
  have h3 := h 3 (by norm_num)
  have h4 := h 4 (by norm_num)
  have h5 := h 5 (by norm_num)
  have h6 := h 6 (by norm_num)
  simp only [colBits_eq_div] at h0 h1 h2 h3 h4 h5 h6 ⊢
  interval_cases c <;> norm_num at h0 h1 h2 h3 h4 h5 h6 ⊢ <;> omega

theorem WellFormed.colBits_lt_guard {P : position} (wf : WellFormed P) {c : Nat} (hc : c < 7) :
    colBits P.mask c < 127 := by
  rw [wf.cols c hc]
  have := height_le P.mask c
  have : 2 ^ height P.mask c ≤ 2 ^ 6 := Nat.pow_le_pow_right (by norm_num) this
  omega

/-- The move played by `playCol`: the single cell on top of the stones of the column. -/
theorem WellFormed.move_eq {P : position} (wf : WellFormed P) {col : Nat} (hc : col < WIDTH)
    (hp : canPlay P col = true) :
    ((P.mask + bottom_mask_col col) % U64) &&& column_mask col
      = 2 ^ (col * 7 + height P.mask col) := by
  have hh := (wf.canPlay_iff hc).mp hp
  have hc7 : col < 7 := hc
  apply Nat.eq_of_testBit_eq
  intro n
  rw [Nat.testBit_and, testBit_column_mask col n hc, Nat.testBit_two_pow, bottom_mask_col_eq hc]
  by_cases h1 : col * 7 ≤ n ∧ n < col * 7 + 6
  · have e1 : n / 7 = col := by omega
    rw [testBit_eq_colBits, e1]
    show ((colBits ((P.mask + 2 ^ (col * 7)) % 2 ^ 64) col).testBit (n % 7) && _) = _
    rw [colBits_add_bottom_col wf.mask_lt hc7 (wf.colBits_lt_guard hc7), wf.cols col hc,
      Nat.sub_add_cancel Nat.one_le_two_pow, Nat.testBit_two_pow]
    simp only [h1, and_self, decide_True, Bool.and_true]
    congr 1
    apply propext
    constructor <;> intro h <;> omega
  · simp only [h1, decide_False, Bool.and_false]
    symm
    simp only [decide_eq_false_iff_not]
    omega

theorem WellFormed.testBit_possible {P : position} (wf : WellFormed P) (n : Nat) :
    (possible P).testBit n
      = decide (n < 49 ∧ n % 7 = height P.mask (n / 7) ∧ height P.mask (n / 7) < 6) := by
  unfold possible
  rw [Nat.testBit_and, testBit_board_mask, bottom_mask_eq]
  by_cases hn : n < 49
  · have hc : n / 7 < 7 := by omega
    rw [testBit_eq_colBits]
    show ((colBits ((P.mask + 4432676798593) % 2 ^ 64) (n / 7)).testBit (n % 7) && _) = _
    rw [colBits_add_bottom_mask wf.mask_lt hc (fun c' h' => wf.colBits_lt_guard h'), wf.cols _ hc,
      Nat.sub_add_cancel Nat.one_le_two_pow, Nat.testBit_two_pow]
    have := height_le P.mask (n / 7)
    by_cases h1 : height P.mask (n / 7) = n % 7
    · simp [h1, hn]
    · have h2 : ¬ n % 7 = height P.mask (n / 7) := fun h => h1 h.symm
      simp [h1, h2]
  · simp [hn]

/-! ### Reachable positions are well formed -/

theorem colBits_two_pow (k c : Nat) :
    colBits (2 ^ k) c = if k / 7 = c then 2 ^ (k % 7) else 0 := by
  apply Nat.eq_of_testBit_eq
  intro r
  rw [testBit_colBits, Nat.testBit_two_pow]
  split
  · rename_i h
    rw [Nat.testBit_two_pow]
    by_cases hr : r < 7
    · simp only [hr, decide_True, Bool.true_and]
      congr 1; apply propext; constructor <;> intro h' <;> omega
    · have : ¬ k % 7 = r := by omega
      simp [hr, this]
  · rename_i h
    rw [Nat.zero_testBit]
    by_cases hr : r < 7
    · have : ¬ k = c * 7 + r := by omega
      simp [this]
    · simp [hr]

theorem WellFormed.playCol_eq {P : position} (wf : WellFormed P) {col : Nat} (hc : col < WIDTH)
    (hp : canPlay P col = true) :
    playCol P col = ⟨P.current_position ^^^ P.mask,
      P.mask ||| 2 ^ (col * 7 + height P.mask col), P.moves + 1⟩ := by
  have hm : P.moves + 1 < U32 := by
    rw [wf.moves_eq]
    have := height_le P.mask
    simp only [WIDTH, List.range_succ, List.range_zero, List.nil_append, List.cons_append,
      List.map_cons, List.map_nil, List.sum_cons, List.sum_nil, U32]
    have h0 := this 0; have h1 := this 1; have h2 := this 2; have h3 := this 3
    have h4 := this 4; have h5 := this 5; have h6 := this 6
    omega
  unfold playCol play
  rw [wf.move_eq hc hp, Nat.mod_eq_of_lt hm]

theorem or_two_pow_succ (h : Nat) : (2 ^ h - 1) ||| 2 ^ h = 2 ^ (h + 1) - 1 := by
  apply Nat.eq_of_testBit_eq
  intro r
  rw [Nat.testBit_or, Nat.testBit_two_pow_sub_one, Nat.testBit_two_pow_sub_one, Nat.testBit_two_pow]
  by_cases h1 : r < h
  · simp [h1]; omega
  · by_cases h2 : h = r
    · simp [h2]
    · simp [h1, h2]; omega

/-- The heights of the columns after a stone is dropped into column `col`. -/
theorem WellFormed.height_play {P : position} (wf : WellFormed P) {col : Nat} (hc : col < WIDTH)
    (hp : canPlay P col = true) {c : Nat} (hc' : c < WIDTH) :
    colBits (P.mask ||| 2 ^ (col * 7 + height P.mask col)) c
        = 2 ^ (if c = col then height P.mask col + 1 else height P.mask c) - 1
      ∧ height (P.mask ||| 2 ^ (col * 7 + height P.mask col)) c
        = if c = col then height P.mask col + 1 else height P.mask c := by
  have hh := (wf.canPlay_iff hc).mp hp
  have e : colBits (P.mask ||| 2 ^ (col * 7 + height P.mask col)) c
        = 2 ^ (if c = col then height P.mask col + 1 else height P.mask c) - 1 := by
    rw [colBits_or, colBits_two_pow, wf.cols c hc']
    have e1 : (col * 7 + height P.mask col) / 7 = col := by omega
    have e2 : (col * 7 + height P.mask col) % 7 = height P.mask col := by omega
    rw [e1, e2]
    by_cases hcc : c = col
    · subst hcc
      simp only [if_true]
      exact or_two_pow_succ _
    · have : ¬ col = c := fun h => hcc h.symm
      simp [hcc, this]
  refine ⟨e, height_of_colBits ?_ e⟩
  have := height_le P.mask c
  split <;> omega

theorem WellFormed.after_playCol {P : position} (wf : WellFormed P) {col : Nat} (hc : col < WIDTH)
    (hp : canPlay P col = true) : WellFormed (playCol P col) := by
  have hh := (wf.canPlay_iff hc).mp hp
  have hc7 : col < 7 := hc
  rw [wf.playCol_eq hc hp]
  refine ⟨?_, ?_, ?_, ?_⟩
  · exact Nat.or_lt_two_pow wf.mask_lt (Nat.pow_lt_pow_right (by norm_num)
      (by simp only [WIDTH, HEIGHT]; omega))
  · intro c hc'
    have := wf.height_play hc hp hc'
    show colBits (P.mask ||| 2 ^ (col * 7 + height P.mask col)) c = _
    rw [this.1, this.2]
  · apply Nat.eq_of_testBit_eq
    intro n
    simp only [Nat.testBit_and, Nat.testBit_xor, Nat.testBit_or]
    have := @WellFormed.testBit_current P wf n
    cases h1 : P.current_position.testBit n <;> cases h2 : P.mask.testBit n <;> simp_all
  · show P.moves + 1 = _
    rw [wf.moves_eq]
    have h0 := (wf.height_play hc hp (show 0 < WIDTH by decide)).2
    have h1 := (wf.height_play hc hp (show 1 < WIDTH by decide)).2
    have h2 := (wf.height_play hc hp (show 2 < WIDTH by decide)).2
    have h3 := (wf.height_play hc hp (show 3 < WIDTH by decide)).2
    have h4 := (wf.height_play hc hp (show 4 < WIDTH by decide)).2
    have h5 := (wf.height_play hc hp (show 5 < WIDTH by decide)).2
    have h6 := (wf.height_play hc hp (show 6 < WIDTH by decide)).2
    simp only [WIDTH, List.range_succ, List.range_zero, List.nil_append, List.cons_append,
      List.map_cons, List.map_nil, List.sum_cons, List.sum_nil]
    rw [h0, h1, h2, h3, h4, h5, h6]
    interval_cases col <;> simp <;> omega

theorem wellFormed_empty : WellFormed position.empty := by
  refine ⟨by decide, ?_, by decide, by decide⟩
  intro c hc
  unfold WIDTH at hc
  interval_cases c <;> decide

theorem Reachable.wellFormed {P : position} (h : Reachable P) : WellFormed P := by
  induction h with
  | empty => exact wellFormed_empty
  | step col _ hc hp ih => exact ih.after_playCol hc hp

/-! ### The key of a position -/

theorem colBits_of_lt {x : Nat} (hx : x < 2 ^ 49) {c : Nat} (hc : 7 ≤ c) : colBits x c = 0 := by
  rw [colBits_eq_div]
  have : 2 ^ 49 ≤ 128 ^ c := by
    calc 2 ^ 49 = 128 ^ 7 := by norm_num
      _ ≤ 128 ^ c := Nat.pow_le_pow_right (by norm_num) hc
  rw [Nat.div_eq_of_lt (by omega)]

theorem div_add_of_no_carry (x y : Nat) :
    ∀ c : Nat, (∀ c', c' < c → x / 128 ^ c' % 128 + y / 128 ^ c' % 128 < 128) →
      (x + y) / 128 ^ c = x / 128 ^ c + y / 128 ^ c := by
  intro c
  induction c with
  | zero => intro _; simp
  | succ c ih =>
    intro h
    have e := ih (fun c' h' => h c' (by omega))
    have hc := h c (by omega)
    rw [Nat.pow_succ, ← Nat.div_div_eq_div_mul, ← Nat.div_div_eq_div_mul,
      ← Nat.div_div_eq_div_mul, e]
    omega

/-- Column by column, the sum of two boards with free guard bits has no carry
out of a column. -/
theorem colBits_add {x y c : Nat} (hx : x < 2 ^ 49) (hy : y < 2 ^ 49) (hc : c < 7)
    (h1 : ∀ c', c' < 7 → colBits x c' < 64) (h2 : ∀ c', c' < 7 → colBits y c' < 64) :
    colBits ((x + y) % 2 ^ 64) c = colBits x c + colBits y c := by
  rw [Nat.mod_eq_of_lt (by omega)]
  have a := h1 c hc
  have b := h2 c hc
  simp only [colBits_eq_div] at h1 h2 a b ⊢
  rw [div_add_of_no_carry x y c (fun c' h' => by
    have := h1 c' (by omega); have := h2 c' (by omega); omega)]
  omega

theorem WellFormed.colBits_mask_lt {P : position} (wf : WellFormed P) {c : Nat} (hc : c < 7) :
    colBits P.mask c < 64 := by
  rw [wf.cols c hc]
  have := height_le P.mask c
  have : 2 ^ height P.mask c ≤ 2 ^ 6 := Nat.pow_le_pow_right (by norm_num) this
  omega

theorem WellFormed.colBits_current_lt {P : position} (wf : WellFormed P) {c : Nat} (hc : c < 7) :
    colBits P.current_position c < 2 ^ height P.mask c := by
  have : colBits P.current_position c &&& colBits P.mask c = colBits P.current_position c := by
    rw [← colBits_and, wf.subset]
  have h2 : colBits P.current_position c ≤ colBits P.mask c := by
    rw [← this]; exact Nat.and_le_right
  rw [wf.cols c hc] at h2
  have := @Nat.one_le_two_pow (height P.mask c)
  omega

theorem WellFormed.current_lt {P : position} (wf : WellFormed P) :
    P.current_position < 2 ^ 49 := by
  have : P.current_position ≤ P.mask := by
    rw [← wf.subset]; exact Nat.and_le_right
  exact lt_of_le_of_lt this wf.mask_lt

theorem two_pow_add_inj {a b h k : Nat} (hh : h ≤ 6) (hk : k ≤ 6) (ha : a < 2 ^ h) (hb : b < 2 ^ k)
    (e : a + (2 ^ h - 1) = b + (2 ^ k - 1)) : h = k ∧ a = b := by
  interval_cases h <;> interval_cases k <;> norm_num at ha hb e ⊢ <;> omega

theorem WellFormed.key_col {P Q : position} (wp : WellFormed P) (wq : WellFormed Q)
    (h : key P = key Q) {c : Nat} (hc : c < 7) :
    height P.mask c = height Q.mask c ∧
      colBits P.current_position c = colBits Q.current_position c := by
  have e := congrArg (fun x => colBits x c) h
  simp only [key, U64] at e
  have hp1 : ∀ c', c' < 7 → colBits P.current_position c' < 64 := fun c' h' =>
    lt_of_lt_of_le (wp.colBits_current_lt h')
      (Nat.pow_le_pow_right (by norm_num) (height_le _ _))
  have hq1 : ∀ c', c' < 7 → colBits Q.current_position c' < 64 := fun c' h' =>
    lt_of_lt_of_le (wq.colBits_current_lt h')
      (Nat.pow_le_pow_right (by norm_num) (height_le _ _))
  rw [colBits_add wp.current_lt wp.mask_lt hc hp1 (fun c' h' => wp.colBits_mask_lt h'),
    colBits_add wq.current_lt wq.mask_lt hc hq1 (fun c' h' => wq.colBits_mask_lt h'),
    wp.cols c hc, wq.cols c hc] at e
  exact two_pow_add_inj (height_le _ _) (height_le _ _) (wp.colBits_current_lt hc)
    (wq.colBits_current_lt hc) e

theorem WellFormed.key_inj {P Q : position} (wp : WellFormed P) (wq : WellFormed Q)
    (h : key P = key Q) :
    P.current_position = Q.current_position ∧ P.mask = Q.mask := by
  constructor
  · apply eq_of_colBits
    intro c
    by_cases hc : c < 7
    · exact (wp.key_col wq h hc).2
    · rw [colBits_of_lt wp.current_lt (by omega), colBits_of_lt wq.current_lt (by omega)]
  · apply eq_of_colBits
    intro c
    by_cases hc : c < 7
    · rw [wp.cols c hc, wq.cols c hc, (wp.key_col wq h hc).1]
    · rw [colBits_of_lt wp.mask_lt (by omega), colBits_of_lt wq.mask_lt (by omega)]

/-! ### Replaying a move sequence -/

/-- The test of `play(std::string)` rejects exactly the characters that are not valid moves. -/
theorem invalid_iff (P : position) (ch : Char) :
    (((ch.toNat : Int) - ('1'.toNat : Int) < 0 ∨ (ch.toNat : Int) - ('1'.toNat : Int) ≥ (WIDTH : Int)
      ∨ (!canPlay P ((ch.toNat : Int) - ('1'.toNat : Int)).toNat) = true
      ∨ isWinningMove P ((ch.toNat : Int) - ('1'.toNat : Int)).toNat = true))
      ↔ validMove P ch = false := by
  have e : ((ch.toNat : Int) - ('1'.toNat : Int)).toNat = colOfChar ch := by
    unfold colOfChar; omega
  rw [e]
  have h1 : '1'.toNat = 49 := rfl
  have h7 : '7'.toNat = 55 := rfl
  unfold validMove WIDTH
  rw [h1, h7]
  by_cases a : 49 ≤ ch.toNat ∧ ch.toNat ≤ 55
  · have n1 : ¬ ((ch.toNat : Int) - ((49 : Nat) : Int) < 0) := by omega
    have n2 : ¬ ((ch.toNat : Int) - ((49 : Nat) : Int) ≥ ((7 : Nat) : Int)) := by omega
    cases h3 : canPlay P (colOfChar ch) <;> cases h4 : isWinningMove P (colOfChar ch) <;>
      (simp [a]; try omega)
  · have : ((ch.toNat : Int) - ((49 : Nat) : Int) < 0) ∨
        ((ch.toNat : Int) - ((49 : Nat) : Int) ≥ ((7 : Nat) : Int)) := by omega
    have a' : ¬ (49 ≤ ch.toNat ∧ ch.toNat ≤ 55) := a
    simp only [a', decide_False, Bool.false_and, iff_true]
    rcases this with h | h
    · exact Or.inl h
    · exact Or.inr (Or.inl h)

theorem playSeqFrom_cons (ch : Char) (rest : List Char) (i : Nat) (P : position) :
    playSeqFrom (ch :: rest) i P
      = if validMove P ch = false then (i, P)
        else playSeqFrom rest (i + 1) (playCol P (colOfChar ch)) := by
  have e : ((ch.toNat : Int) - ('1'.toNat : Int)).toNat = colOfChar ch := by
    unfold colOfChar; omega
  show (if _ then _ else _) = _
  rw [if_congr (invalid_iff P ch) rfl rfl, e]

/-- The loop of `play(std::string)` plays the leading valid characters and stops. -/
theorem playSeqFrom_eq (cs : List Char) :
    ∀ (i : Nat) (P : position),
      playSeqFrom cs i P = (i + validLen P cs, playChars P (cs.take (validLen P cs))) := by
  induction cs with
  | nil => intro i P; rfl
  | cons ch rest ih =>
    intro i P
    rw [playSeqFrom_cons]
    by_cases h : validMove P ch = true
    · simp only [h, validLen, if_true, Bool.true_eq_false, if_false, ih, List.take_succ_cons]
      refine Prod.ext ?_ rfl
      show i + 1 + _ = i + (_ + 1)
      omega
    · have h' : validMove P ch = false := by simpa using h
      simp [h', validLen, playChars]

theorem validLen_le (cs : List Char) : ∀ P : position, validLen P cs ≤ cs.length := by
  induction cs with
  | nil => intro P; simp [validLen]
  | cons ch rest ih =>
    intro P
    unfold validLen
    split
    · have := ih (playCol P (colOfChar ch)); simp; omega
    · simp

/-- A prefix is valid throughout iff it is not longer than the leading run of valid characters. -/
theorem allValid_take (cs : List Char) :
    ∀ (P : position) (j : Nat), j ≤ cs.length →
      (allValid P (cs.take j) = true ↔ j ≤ validLen P cs) := by
  induction cs with
  | nil => intro P j hj; simp at hj; subst hj; simp [allValid, validLen]
  | cons ch rest ih =>
    intro P j hj
    cases j with
    | zero => simp [allValid]
    | succ j =>
      have hj' : j ≤ rest.length := by simpa using hj
      rw [List.take_succ_cons]
      simp only [allValid, validLen, Bool.and_eq_true]
      by_cases h : validMove P ch = true
      · simp only [h, true_and, if_true, ih _ j hj']
        omega
      · simp [h]

theorem validMove_col {P : position} {ch : Char} (h : validMove P ch = true) :
    colOfChar ch < WIDTH ∧ canPlay P (colOfChar ch) = true := by
  unfold validMove at h
  simp only [Bool.and_eq_true, decide_eq_true_eq] at h
  refine ⟨?_, h.1.2⟩
  have h7 : '7'.toNat = 55 := rfl
  unfold colOfChar WIDTH
  have h1 : '1'.toNat = 49 := rfl
  omega

theorem reachable_playChars (cs : List Char) :
    ∀ P : position, Reachable P → allValid P cs = true → Reachable (playChars P cs) := by
  induction cs with
  | nil => intro P h _; exact h
  | cons ch rest ih =>
    intro P h hv
    simp only [allValid, Bool.and_eq_true] at hv
    have := validMove_col hv.1
    exact ih _ (Reachable.step _ h this.1 this.2) hv.2

theorem moves_playChars (cs : List Char) :
    ∀ P : position, Reachable P → allValid P cs = true →
      (playChars P cs).moves = P.moves + cs.length := by
  induction cs with
  | nil => intro P _ _; rfl
  | cons ch rest ih =>
    intro P h hv
    simp only [allValid, Bool.and_eq_true] at hv
    have hc := validMove_col hv.1
    have e := ih _ (Reachable.step _ h hc.1 hc.2) hv.2
    show (playChars (playCol P (colOfChar ch)) rest).moves = _
    rw [e, h.wellFormed.playCol_eq hc.1 hc.2]
    simp only [List.length_cons]
    omega

theorem WellFormed.moves_le {P : position} (wf : WellFormed P) : P.moves ≤ 42 := by
  rw [wf.moves_eq]
  have := height_le P.mask
  simp only [WIDTH, List.range_succ, List.range_zero, List.nil_append, List.cons_append,
    List.map_cons, List.map_nil, List.sum_cons, List.sum_nil]
  have h0 := this 0; have h1 := this 1; have h2 := this 2; have h3 := this 3
  have h4 := this 4; have h5 := this 5; have h6 := this 6
  omega

theorem WellFormed.nbMoves_eq {P : position} (wf : WellFormed P) : nbMoves P = (P.moves : Int) := by
  have := wf.moves_le
  unfold nbMoves U32
  have e : P.moves % 2 ^ 32 = P.moves := Nat.mod_eq_of_lt (by omega)
  rw [e, if_pos (by omega)]

/-- The position reached by replaying a move sequence from the empty board is reachable. -/
theorem reachable_playSeq (seq : String) : Reachable (playSeq position.empty seq).2 := by
  unfold playSeq
  rw [playSeqFrom_eq]
  exact reachable_playChars _ _ Reachable.empty
    ((allValid_take seq.toList position.empty _ (validLen_le _ _)).mpr le_rfl)

/-- Claim C10. From the empty board, `play(seq)` returns the length `k` of the
longest prefix of `seq` whose characters are all valid moves at the moment
they are processed (a digit `'1'`..`'7'` naming a column that is not full and
does not win at once); it leaves the position obtained from the empty board
by `playCol` of those `k` columns, so that `nbMoves() = k`; `k` is the length
of `seq` iff every character is valid; and `play("1111111")` returns 6. -/
theorem play_sequence_longest_valid_prefix (seq : String) :
    (playSeq position.empty seq).1 ≤ seq.length
    ∧ allValid position.empty (seq.toList.take (playSeq position.empty seq).1) = true
    ∧ (∀ j, j ≤ seq.length → allValid position.empty (seq.toList.take j) = true →
        j ≤ (playSeq position.empty seq).1)
    ∧ (playSeq position.empty seq).2
        = playChars position.empty (seq.toList.take (playSeq position.empty seq).1)
    ∧ nbMoves (playSeq position.empty seq).2 = (playSeq position.empty seq).1
    ∧ ((playSeq position.empty seq).1 = seq.length ↔ allValid position.empty seq.toList = true)
    ∧ (playSeq position.empty "1111111").1 = 6 := by
  have hk : (playSeq position.empty seq).1 = validLen position.empty seq.toList := by
    unfold playSeq; rw [playSeqFrom_eq]; simp
  have hP : (playSeq position.empty seq).2
      = playChars position.empty (seq.toList.take (validLen position.empty seq.toList)) := by
    unfold playSeq; rw [playSeqFrom_eq]
  have hle := validLen_le seq.toList position.empty
  have hlen : seq.toList.length = seq.length := rfl
  have hv := (allValid_take seq.toList position.empty _ hle).mpr le_rfl
  have hr := reachable_playChars _ _ Reachable.empty hv
  refine ⟨?_, ?_, ?_, ?_, ?_, ?_, ?_⟩
  · rw [hk, ← hlen]; exact hle
  · rw [hk]; exact hv
  · intro j hj h
    rw [hk]
    exact (allValid_take seq.toList position.empty j (by rw [hlen]; exact hj)).mp h
  · rw [hk]; exact hP
  · rw [hP, hk, hr.wellFormed.nbMoves_eq, moves_playChars _ _ Reachable.empty hv]
    have h0 : position.empty.moves = 0 := rfl
    rw [h0, Nat.zero_add, List.length_take, Nat.min_eq_left hle]
  · rw [hk, ← hlen]
    constructor
    · intro h
      have := (allValid_take seq.toList position.empty seq.toList.length le_rfl).mpr (by omega)
      rwa [List.take_length] at this
    · intro h
      have := (allValid_take seq.toList position.empty seq.toList.length le_rfl).mp
        (by rw [List.take_length]; exact h)
      omega
  · decide

/-! ### Legality, keys and moves -/

/-- Claim C5. In a reachable position, for a column `col` of the board,
`canPlay(col)` is false iff all `HEIGHT` playable cells of the column (rows
`0..HEIGHT-1`) are set in `mask`. -/
theorem canPlay_false_iff_column_full (P : position) (hP : Reachable P) (col : Nat)
    (hc : col < WIDTH) :
    canPlay P col = false ↔
      ∀ r, r < HEIGHT → P.mask.testBit (r + col * (HEIGHT + 1)) = true := by
  have wf := hP.wellFormed
  have hc7 : col < 7 := hc
  have hh := height_le P.mask col
  have key : ∀ r, r < 6 → (P.mask.testBit (r + col * 7) = true ↔ r < height P.mask col) := by
    intro r hr
    rw [wf.testBit_mask]
    have e1 : (r + col * 7) / 7 = col := by omega
    have e2 : (r + col * 7) % 7 = r := by omega
    rw [e1, e2]
    simp only [decide_eq_true_eq]
    constructor
    · exact fun h => h.2
    · exact fun h => ⟨by omega, h⟩
  have hcp := wf.canPlay_iff hc
  constructor
  · intro h r hr
    have : ¬ height P.mask col < 6 := fun h' => by
      rw [hcp.mpr h'] at h; exact Bool.noConfusion h
    exact (key r hr).mpr (by unfold HEIGHT at hr; omega)
  · intro h
    have := (key 5 (by norm_num)).mp (h 5 (by decide))
    cases hcan : canPlay P col
    · rfl
    · have := hcp.mp hcan; omega

/-- Claim C5 at the position after `"111111"`, whose first column is full. -/
theorem canPlay_false_iff_column_full_witness :
    Reachable (playSeq position.empty "111111").2 ∧ 0 < WIDTH ∧
    (canPlay (playSeq position.empty "111111").2 0 = false ↔
      ∀ r, r < HEIGHT →
        (playSeq position.empty "111111").2.mask.testBit (r + 0 * (HEIGHT + 1)) = true) :=
  ⟨reachable_playSeq _, by decide,
    canPlay_false_iff_column_full _ (reachable_playSeq _) 0 (by decide)⟩

/-- Claim C6. The key is injective on reachable positions: two reachable
positions with the same `key()` have the same `current_position` and the same
`mask`. -/
theorem key_injective_on_reachable (P Q : position) (hP : Reachable P) (hQ : Reachable Q)
    (h : key P = key Q) :
    P.current_position = Q.current_position ∧ P.mask = Q.mask :=
  hP.wellFormed.key_inj hQ.wellFormed h

/-- Claim C6 at the positions after `"4433"` and after `"3344"`, which have
the same stones and the same key. -/
theorem key_injective_on_reachable_witness :
    Reachable (playSeq position.empty "4433").2 ∧ Reachable (playSeq position.empty "3344").2 ∧
    key (playSeq position.empty "4433").2 = key (playSeq position.empty "3344").2 ∧
    (playSeq position.empty "4433").2.current_position
        = (playSeq position.empty "3344").2.current_position ∧
    (playSeq position.empty "4433").2.mask = (playSeq position.empty "3344").2.mask :=
  ⟨reachable_playSeq _, reachable_playSeq _, by decide,
    key_injective_on_reachable _ _ (reachable_playSeq _) (reachable_playSeq _) (by decide)⟩

/-- Claim C9. In a reachable position, `playCol(col)` on a playable column
`col` of the board adds to `mask` exactly one bit, the lowest unoccupied cell
of the column, which is bit `h + col*(HEIGHT+1)` for the number `h` of stones
already in the column; the new `current_position` is `mask XOR
current_position`; `moves` grows by one; and no bit of another column changes
in `mask`. -/
theorem playCol_effect (P : position) (hP : Reachable P) (col : Nat) (hc : col < WIDTH)
    (hp : canPlay P col = true) :
    (playCol P col).mask = P.mask ||| 2 ^ (height P.mask col + col * (HEIGHT + 1))
    ∧ height P.mask col < HEIGHT
    ∧ P.mask.testBit (height P.mask col + col * (HEIGHT + 1)) = false
    ∧ (∀ r, r < height P.mask col → P.mask.testBit (r + col * (HEIGHT + 1)) = true)
    ∧ (∀ n, (playCol P col).mask.testBit n
        = (P.mask.testBit n || decide (n = height P.mask col + col * (HEIGHT + 1))))
    ∧ (playCol P col).current_position = P.mask ^^^ P.current_position
    ∧ (playCol P col).moves = P.moves + 1
    ∧ (∀ n, n / (HEIGHT + 1) ≠ col → (playCol P col).mask.testBit n = P.mask.testBit n) := by
  have wf := hP.wellFormed
  have hc7 : col < 7 := hc
  have hh := (wf.canPlay_iff hc).mp hp
  have e := wf.playCol_eq hc hp
  have e1 : ∀ r, r < 7 → (r + col * 7) / 7 = col := fun r hr => by omega
  have e2 : ∀ r, r < 7 → (r + col * 7) % 7 = r := fun r hr => by omega
  have hbit : ∀ n, (playCol P col).mask.testBit n
      = (P.mask.testBit n || decide (n = height P.mask col + col * (HEIGHT + 1))) := by
    intro n
    rw [e]
    show (P.mask ||| 2 ^ (col * 7 + height P.mask col)).testBit n = _
    rw [Nat.testBit_or, Nat.testBit_two_pow]
    congr 2
    apply propext
    unfold HEIGHT
    constructor <;> intro h <;> omega
  refine ⟨?_, hh, ?_, ?_, hbit, ?_, ?_, ?_⟩
  · rw [e]
    show P.mask ||| 2 ^ (col * 7 + height P.mask col) = P.mask ||| 2 ^ (height P.mask col + col * 7)
    rw [Nat.add_comm]
  · show P.mask.testBit (height P.mask col + col * 7) = false
    rw [wf.testBit_mask, e1 _ (by omega), e2 _ (by omega)]
    simp
  · intro r hr
    show P.mask.testBit (r + col * 7) = true
    rw [wf.testBit_mask, e1 _ (by omega), e2 _ (by omega)]
    simp only [decide_eq_true_eq]
    exact ⟨by omega, hr⟩
  · rw [e]
    exact Nat.xor_comm _ _
  · rw [e]
  · intro n hn
    rw [hbit]
    have : ¬ n = height P.mask col + col * (HEIGHT + 1) := by
      intro h; apply hn; rw [h]; unfold HEIGHT at *; omega
    simp [this]

/-- Claim C9 at the position after `"4455"`, playing column 3 (the fourth). -/
theorem playCol_effect_witness :
    Reachable (playSeq position.empty "4455").2 ∧ 3 < WIDTH ∧
    canPlay (playSeq position.empty "4455").2 3 = true ∧
    (playCol (playSeq position.empty "4455").2 3).mask
      = (playSeq position.empty "4455").2.mask ||| 2 ^ (2 + 3 * (HEIGHT + 1)) ∧
    (playCol (playSeq position.empty "4455").2 3).moves = 5 :=
  ⟨reachable_playSeq _, by decide, by decide,
    (playCol_effect _ (reachable_playSeq _) 3 (by decide) (by decide)).1,
    (playCol_effect _ (reachable_playSeq _) 3 (by decide) (by decide)).2.2.2.2.2.2.1⟩

/-- Claim C2. For a position `P` with `canWinNext()` true and `m = nbMoves()`,
`solve(P, weak)` returns `(WIDTH*HEIGHT + 1 - m) / 2`, whatever the search
function it would delegate to does: `negamax` is not called. -/
theorem solve_immediate_win (P : position) (weak : Bool) (h : canWinNext P = true) :
    solve P weak = Outcome.value (Int.tdiv ((WIDTH * HEIGHT : Nat) + 1 - nbMoves P) 2)
    ∧ ∀ search : position → Int → Int → Outcome,
        solveWith search P weak
          = Outcome.value (Int.tdiv ((WIDTH * HEIGHT : Nat) + 1 - nbMoves P) 2) := by
  have e : ∀ search : position → Int → Int → Outcome,
      solveWith search P weak
        = Outcome.value (Int.tdiv ((WIDTH * HEIGHT : Nat) + 1 - nbMoves P) 2) := by
    intro search
    unfold solveWith
    rw [if_pos h]
    rfl
  exact ⟨e negamax, e⟩

/-- Claim C2 at the position after `"121212"`, where the player to move has
three stones stacked in the first column: `solve` returns `(43 - 6) / 2 = 18`. -/
theorem solve_immediate_win_witness :
    canWinNext (playSeq position.empty "121212").2 = true ∧
    solve (playSeq position.empty "121212").2 false = Outcome.value 18 :=
  ⟨by decide, (solve_immediate_win _ false (by decide)).1⟩

/-! ### Win detection -/

theorem testBit_shl_iff {p n i : Nat} (hi : i < 64) :
    (shl p n).testBit i = true ↔ stone p ((i : Int) - n) := by
  rw [testBit_shl]
  unfold stone
  simp only [hi, decide_True, Bool.true_and, Bool.and_eq_true, decide_eq_true_eq]
  constructor
  · rintro ⟨h1, h2⟩
    refine ⟨by omega, ?_⟩
    have : ((i : Int) - n).toNat = i - n := by omega
    rw [this]; exact h2
  · rintro ⟨h1, h2⟩
    refine ⟨by omega, ?_⟩
    have : ((i : Int) - n).toNat = i - n := by omega
    rw [this] at h2; exact h2

theorem testBit_shr_iff {p n i : Nat} :
    (p >>> n).testBit i = true ↔ stone p ((i : Int) + n) := by
  rw [Nat.testBit_shiftRight]
  unfold stone
  have : ((i : Int) + n).toNat = n + i := by omega
  rw [this]
  constructor
  · exact fun h => ⟨by omega, h⟩
  · exact fun h => h.2

/-- The bits of `compute_winning_position`: a free cell of the board from which
three stones of `pos` are lined up below it, or which completes one of the four
windows of a row or of a diagonal. -/
theorem testBit_compute_winning_position {pos mask i : Nat} (hi : i < 64) :
    (compute_winning_position pos mask).testBit i = true ↔
      ((stone pos ((i : Int) - 1) ∧ stone pos ((i : Int) - 2) ∧ stone pos ((i : Int) - 3))
        ∨ windows (fun t => stone pos ((i : Int) + t * 7))
        ∨ windows (fun t => stone pos ((i : Int) + t * 6))
        ∨ windows (fun t => stone pos ((i : Int) + t * 8)))
      ∧ (board_mask.testBit i ≠ mask.testBit i) := by
  unfold compute_winning_position windows
  simp only [HEIGHT, Nat.testBit_and, Nat.testBit_or, Nat.testBit_xor, Bool.and_eq_true,
    Bool.or_eq_true, testBit_shl_iff hi, testBit_shr_iff, bne_iff_ne, Nat.reduceAdd,
    Nat.reduceMul, Nat.cast_ofNat]
  simp only [Nat.cast_one, neg_mul, one_mul, Int.reduceMul, ← sub_eq_add_neg, or_assoc,
    and_assoc]


theorem windows_logic (S R B : Int → Prop) (h0 : S 0) (r0 : R 0)
    (hS : ∀ t, t ≠ 0 → (S t ↔ R t ∧ B t))
    (up : ∀ t, R t → B (t + 1) → R (t + 1)) (down : ∀ t, R t → B (t - 1) → R (t - 1)) :
    ((S 0 ∧ S 1 ∧ S 2 ∧ S 3) ∨ (S (-1) ∧ S 0 ∧ S 1 ∧ S 2) ∨ (S (-2) ∧ S (-1) ∧ S 0 ∧ S 1)
      ∨ (S (-3) ∧ S (-2) ∧ S (-1) ∧ S 0)) ↔ windows B := by
  have s1 := hS 1 (by norm_num)
  have s2 := hS 2 (by norm_num)
  have s3 := hS 3 (by norm_num)
  have t1 := hS (-1) (by norm_num)
  have t2 := hS (-2) (by norm_num)
  have t3 := hS (-3) (by norm_num)
  have u1 : B 1 → R 1 := fun b => up 0 r0 b
  have u2 : R 1 → B 2 → R 2 := fun r b => up 1 r b
  have u3 : R 2 → B 3 → R 3 := fun r b => up 2 r b
  have d1 : B (-1) → R (-1) := fun b => down 0 r0 b
  have d2 : R (-1) → B (-2) → R (-2) := fun r b => down (-1) r b
  have d3 : R (-2) → B (-3) → R (-3) := fun r b => down (-2) r b
  unfold windows
  rw [s1, s2, s3, t1, t2, t3]
  constructor
  · rintro (⟨-, ⟨-, a⟩, ⟨-, b⟩, -, c⟩ | ⟨⟨-, a⟩, -, ⟨-, b⟩, -, c⟩ | ⟨⟨-, a⟩, ⟨-, b⟩, -, -, c⟩ |
      ⟨⟨-, a⟩, ⟨-, b⟩, ⟨-, c⟩, -⟩)
    · exact Or.inr (Or.inr (Or.inr ⟨a, b, c⟩))
    · exact Or.inr (Or.inr (Or.inl ⟨b, c, a⟩))
    · exact Or.inr (Or.inl ⟨b, a, c⟩)
    · exact Or.inl ⟨c, b, a⟩
  · rintro (⟨a, b, c⟩ | ⟨a, b, c⟩ | ⟨a, b, c⟩ | ⟨a, b, c⟩)
    · exact Or.inr (Or.inr (Or.inr ⟨⟨d3 (d2 (d1 a) b) c, c⟩, ⟨d2 (d1 a) b, b⟩, ⟨d1 a, a⟩, h0⟩))
    · exact Or.inr (Or.inr (Or.inl ⟨⟨d2 (d1 a) b, b⟩, ⟨d1 a, a⟩, h0, u1 c, c⟩))
    · exact Or.inr (Or.inl ⟨⟨d1 c, c⟩, h0, ⟨u1 a, a⟩, u2 (u1 a) b, b⟩)
    · exact Or.inl ⟨h0, ⟨u1 a, a⟩, ⟨u2 (u1 a) b, b⟩, u3 (u2 (u1 a) b) c, c⟩

theorem lineHasFour_iff {p c r : Nat} {dc dr : Int} (hc : c < 7) (hr : r < 6)
    (hG : ∀ n, p.testBit n = true → n < 49 ∧ n % 7 < 6)
    (hdr : -1 ≤ dr ∧ dr ≤ 1) (hd : dr + dc * 7 ≠ 0) :
    lineHasFour (p ||| 2 ^ (r + c * 7)) c r dc dr = true ↔
      windows (fun t => stone p (((r + c * 7 : Nat) : Int) + t * (dr + dc * 7))) := by
  have hS : ∀ t : Int, t ≠ 0 →
      (cellOf (p ||| 2 ^ (r + c * 7)) (c + t * dc) (r + t * dr) = true ↔
        ((0 ≤ (c : Int) + t * dc ∧ (c : Int) + t * dc < 7 ∧ 0 ≤ (r : Int) + t * dr
            ∧ (r : Int) + t * dr < 6)
          ∧ stone p (((r + c * 7 : Nat) : Int) + t * (dr + dc * 7)))) := by
    intro t ht
    have hne : t * (dr + dc * 7) ≠ 0 := mul_ne_zero ht hd
    have e : (r : Int) + t * dr + ((c : Int) + t * dc) * ((HEIGHT : Int) + 1)
        = ((r + c * 7 : Nat) : Int) + t * (dr + dc * 7) := by
      simp only [HEIGHT]; push_cast; ring
    unfold cellOf stone
    rw [e, Nat.testBit_or, Nat.testBit_two_pow]
    simp only [WIDTH, HEIGHT, Bool.and_eq_true, decide_eq_true_eq, Bool.or_eq_true, Nat.cast_ofNat]
    constructor
    · rintro ⟨hR, h⟩
      have hring : t * (dr + dc * 7) = t * dr + t * dc * 7 := by ring
      refine ⟨hR, ?_, ?_⟩
      · omega
      · rcases h with h | h
        · exact h
        · exfalso; omega
    · rintro ⟨hR, -, h⟩
      exact ⟨hR, Or.inl h⟩
  have h0 : cellOf (p ||| 2 ^ (r + c * 7)) (c + 0 * dc) (r + 0 * dr) = true := by
    unfold cellOf
    simp only [zero_mul, add_zero, WIDTH, HEIGHT, Bool.and_eq_true, decide_eq_true_eq,
      Nat.cast_ofNat]
    refine ⟨by omega, ?_⟩
    have : ((r : Int) + (c : Int) * (6 + 1)).toNat = r + c * 7 := by omega
    rw [this, Nat.testBit_or, Nat.testBit_two_pow_self, Bool.or_true]
  have step : ∀ (c' r' : Int) (ec er : Int), (0 ≤ c' ∧ c' < 7 ∧ 0 ≤ r' ∧ r' < 6) →
      (er = dr ∨ er = -dr) →
      stone p (r' + er + (c' + ec) * 7) → (0 ≤ c' + ec ∧ c' + ec < 7 ∧ 0 ≤ r' + er ∧ r' + er < 6) := by
    intro c' r' ec er hR h2 hB
    obtain ⟨hj, hb⟩ := hB
    have := hG _ hb
    omega
  have up : ∀ t : Int, (0 ≤ (c : Int) + t * dc ∧ (c : Int) + t * dc < 7 ∧ 0 ≤ (r : Int) + t * dr
        ∧ (r : Int) + t * dr < 6) →
      stone p (((r + c * 7 : Nat) : Int) + (t + 1) * (dr + dc * 7)) →
      (0 ≤ (c : Int) + (t + 1) * dc ∧ (c : Int) + (t + 1) * dc < 7 ∧ 0 ≤ (r : Int) + (t + 1) * dr
        ∧ (r : Int) + (t + 1) * dr < 6) := by
    intro t hR hB
    have e : ((r + c * 7 : Nat) : Int) + (t + 1) * (dr + dc * 7)
        = ((r : Int) + t * dr) + dr + (((c : Int) + t * dc) + dc) * 7 := by push_cast; ring
    rw [e] at hB
    have := step _ _ dc dr hR (Or.inl rfl) hB
    have e1 : (t + 1) * dc = t * dc + dc := by ring
    have e2 : (t + 1) * dr = t * dr + dr := by ring
    rw [e1, e2]
    omega
  have down : ∀ t : Int, (0 ≤ (c : Int) + t * dc ∧ (c : Int) + t * dc < 7 ∧ 0 ≤ (r : Int) + t * dr
        ∧ (r : Int) + t * dr < 6) →
      stone p (((r + c * 7 : Nat) : Int) + (t - 1) * (dr + dc * 7)) →
      (0 ≤ (c : Int) + (t - 1) * dc ∧ (c : Int) + (t - 1) * dc < 7 ∧ 0 ≤ (r : Int) + (t - 1) * dr
        ∧ (r : Int) + (t - 1) * dr < 6) := by
    intro t hR hB
    have e : ((r + c * 7 : Nat) : Int) + (t - 1) * (dr + dc * 7)
        = ((r : Int) + t * dr) + (-dr) + (((c : Int) + t * dc) + (-dc)) * 7 := by push_cast; ring
    rw [e] at hB
    have := step _ _ (-dc) (-dr) hR (Or.inr rfl) hB
    have e1 : (t - 1) * dc = t * dc + -dc := by ring
    have e2 : (t - 1) * dr = t * dr + -dr := by ring
    rw [e1, e2]
    omega
  have key := windows_logic
    (fun t => cellOf (p ||| 2 ^ (r + c * 7)) (c + t * dc) (r + t * dr) = true)
    (fun t => 0 ≤ (c : Int) + t * dc ∧ (c : Int) + t * dc < 7 ∧ 0 ≤ (r : Int) + t * dr
        ∧ (r : Int) + t * dr < 6)
    (fun t => stone p (((r + c * 7 : Nat) : Int) + t * (dr + dc * 7)))
    h0 (by simp only [zero_mul, add_zero]; omega) hS up down
  rw [← key]
  unfold lineHasFour
  simp only [List.any_cons, List.all_cons, List.any_nil, List.all_nil, Bool.or_false,
    Bool.and_true, Bool.or_eq_true, Bool.and_eq_true, Int.reduceAdd, Int.reduceNeg,
    Int.reduceSub, zero_add, add_zero]

theorem WellFormed.lowestEmpty_eq {P : position} (wf : WellFormed P) {col : Nat} (hc : col < WIDTH) :
    lowestEmpty P.mask col = height P.mask col := by
  have hc7 : col < 7 := hc
  have key : ∀ r, r < 6 → P.mask.testBit (r + col * 7) = decide (r < height P.mask col) := by
    intro r hr
    rw [wf.testBit_mask]
    have e1 : (r + col * 7) / 7 = col := by omega
    have e2 : (r + col * 7) % 7 = r := by omega
    rw [e1, e2]
    have : r + col * 7 < 49 := by omega
    simp [this]
  have hh := height_le P.mask col
  unfold lowestEmpty
  simp only [HEIGHT, List.range_succ, List.range_zero, List.nil_append, List.cons_append,
    Nat.reduceAdd]
  generalize height P.mask col = h at hh key
  have k0 : P.mask.testBit (col * 7) = decide (0 < h) := by simpa using key 0 (by norm_num)
  have k1 := key 1 (by norm_num)
  have k2 := key 2 (by norm_num)
  have k3 := key 3 (by norm_num)
  have k4 := key 4 (by norm_num)
  have k5 := key 5 (by norm_num)
  interval_cases h <;> simp [List.takeWhile, k0, k1, k2, k3, k4, k5]

/-- In a well-formed position, the winning move test reads one bit of `winning_position()`:
the bit of the cell on top of the stones of the column. -/
theorem WellFormed.isWinningMove_eq {P : position} (wf : WellFormed P) {col : Nat}
    (hc : col < WIDTH) (hp : canPlay P col = true) :
    isWinningMove P col = (winning_position P).testBit (col * 7 + height P.mask col) := by
  have hh := (wf.canPlay_iff hc).mp hp
  have hc7 : col < 7 := hc
  have e : possible P &&& column_mask col = 2 ^ (col * 7 + height P.mask col) := by
    apply Nat.eq_of_testBit_eq
    intro n
    rw [Nat.testBit_and, wf.testBit_possible, testBit_column_mask col n hc, Nat.testBit_two_pow]
    by_cases h1 : col * 7 ≤ n ∧ n < col * 7 + 6
    · have e1 : n / 7 = col := by omega
      rw [e1]
      simp only [h1, and_self, decide_True, Bool.and_true]
      congr 1
      apply propext
      constructor <;> intro h <;> omega
    · simp only [h1, decide_False, Bool.and_false]
      symm
      simp only [decide_eq_false_iff_not]
      omega
  unfold isWinningMove
  rw [Nat.and_assoc, e, Nat.and_two_pow]
  cases (winning_position P).testBit (col * 7 + height P.mask col) <;> simp

theorem WellFormed.stone_current {P : position} (wf : WellFormed P) {n : Nat}
    (h : P.current_position.testBit n = true) : n < 49 ∧ n % 7 < height P.mask (n / 7) := by
  have := wf.testBit_current h
  rw [wf.testBit_mask] at this
  simpa using this

/-- Claim C4. In a reachable position, for a playable column `col` of the
board, `isWinningMove(col)` is true iff, once a stone of the player to move
is placed in the lowest empty cell of `col`, the brute-force scan of the
vertical, the horizontal and the two diagonal lines through that cell finds
four contiguous cells of that player, cells being taken by column and row so
that no line wraps around from one column into another. -/
theorem isWinningMove_iff_scan (P : position) (hP : Reachable P) (col : Nat) (hc : col < WIDTH)
    (hp : canPlay P col = true) :
    isWinningMove P col = true ↔
      scanWin (P.current_position ||| 2 ^ (lowestEmpty P.mask col + col * (HEIGHT + 1)))
        col (lowestEmpty P.mask col) = true := by
  have wf := hP.wellFormed
  have hh := (wf.canPlay_iff hc).mp hp
  have hc7 : col < 7 := hc
  have hG : ∀ n, P.current_position.testBit n = true → n < 49 ∧ n % 7 < 6 := by
    intro n h
    have := wf.stone_current h
    have := height_le P.mask (n / 7)
    omega
  have hi : height P.mask col + col * 7 < 64 := by omega
  rw [wf.lowestEmpty_eq hc, wf.isWinningMove_eq hc hp, Nat.add_comm (col * 7)]
  unfold winning_position
  rw [testBit_compute_winning_position hi]
  have hb : board_mask.testBit (height P.mask col + col * 7) = true := by
    rw [testBit_board_mask]
    simp only [decide_eq_true_eq]
    omega
  have hm : P.mask.testBit (height P.mask col + col * 7) = false := by
    rw [wf.testBit_mask]
    have e1 : (height P.mask col + col * 7) / 7 = col := by omega
    have e2 : (height P.mask col + col * 7) % 7 = height P.mask col := by omega
    rw [e1, e2]
    simp
  have hup : ¬ stone P.current_position (((height P.mask col + col * 7 : Nat) : Int) + 1) := by
    rintro ⟨-, h⟩
    have e : (((height P.mask col + col * 7 : Nat) : Int) + 1).toNat
        = height P.mask col + col * 7 + 1 := by omega
    rw [e] at h
    have := wf.stone_current h
    have e1 : (height P.mask col + col * 7 + 1) / 7 = col := by omega
    rw [e1] at this
    omega
  have hv := @lineHasFour_iff P.current_position col (height P.mask col) 0 1 hc7 hh hG
    (by norm_num) (by norm_num)
  have hh7 := @lineHasFour_iff P.current_position col (height P.mask col) 1 0 hc7 hh hG
    (by norm_num) (by norm_num)
  have hd6 := @lineHasFour_iff P.current_position col (height P.mask col) 1 (-1) hc7 hh hG
    (by norm_num) (by norm_num)
  have hd8 := @lineHasFour_iff P.current_position col (height P.mask col) 1 1 hc7 hh hG
    (by norm_num) (by norm_num)
  unfold scanWin
  simp only [Bool.or_eq_true, HEIGHT]
  rw [hv, hh7, hd6, hd8]
  simp only [hb, hm, ne_eq, not_false_eq_true, and_true, Bool.true_eq_false, zero_mul, add_zero,
    zero_add, one_mul, Int.reduceNeg, Int.reduceAdd, or_assoc]
  apply or_congr _ Iff.rfl
  unfold windows
  simp only [mul_one, Int.reduceNeg, ← sub_eq_add_neg]
  constructor
  · exact fun h => Or.inl h
  · rintro (h | h | h | h)
    · exact h
    · exact absurd h.2.2 hup
    · exact absurd h.1 hup
    · exact absurd h.1 hup

/-- Claim C4 at the position after `"121212"`: the player to move has three
stones stacked in the first column, and playing there is a winning move. -/
theorem isWinningMove_iff_scan_witness :
    Reachable (playSeq position.empty "121212").2 ∧ 0 < WIDTH ∧
    canPlay (playSeq position.empty "121212").2 0 = true ∧
    isWinningMove (playSeq position.empty "121212").2 0 = true ∧
    scanWin ((playSeq position.empty "121212").2.current_position
        ||| 2 ^ (lowestEmpty (playSeq position.empty "121212").2.mask 0 + 0 * (HEIGHT + 1)))
      ((0 : Nat) : Int) (lowestEmpty (playSeq position.empty "121212").2.mask 0) = true :=
  ⟨reachable_playSeq _, by decide, by decide, by decide,
    (isWinningMove_iff_scan _ (reachable_playSeq _) 0 (by decide) (by decide)).mp (by decide)⟩

/-! ### Moves that do not lose at once -/

theorem bne_zero_iff_testBit (x : Nat) : (x != 0) = true ↔ ∃ n, x.testBit n = true := by
  rw [bne_iff_ne]
  constructor
  · exact fun h => Nat.ne_zero_implies_bit_true h
  · rintro ⟨n, hn⟩ rfl
    rw [Nat.zero_testBit] at hn
    exact Bool.noConfusion hn

/-- Clearing the lowest set bit: `x & (x - 1)` has the bits of `x` but for the lowest one. -/
theorem and_pred_testBit {x : Nat} (hx : x ≠ 0) :
    ∃ k, x.testBit k = true ∧
      ∀ j, (x &&& (x - 1)).testBit j = (x.testBit j && decide (j ≠ k)) := by
  obtain ⟨k, m, ⟨q, rfl⟩, rfl⟩ := Nat.exists_eq_two_pow_mul_odd hx
  have hpos : 0 < 2 ^ k := Nat.two_pow_pos k
  have e : 2 ^ k * (2 * q + 1) - 1 = 2 ^ k * (2 * q) + (2 ^ k - 1) := by
    rw [Nat.mul_add, Nat.mul_one]; omega
  have hx' : ∀ j, (2 ^ k * (2 * q + 1)).testBit j
      = (decide (j ≥ k) && (2 * q + 1).testBit (j - k)) := fun j => Nat.testBit_mul_pow_two
  refine ⟨k, ?_, ?_⟩
  · rw [hx']
    have : (2 * q + 1) % 2 = 1 := by omega
    simp [this]
  · intro j
    rw [Nat.testBit_and, e, Nat.testBit_mul_pow_two_add _ (by omega : 2 ^ k - 1 < 2 ^ k), hx']
    by_cases h1 : j < k
    · have : ¬ j ≥ k := by omega
      simp [this]
    · have h2 : j ≥ k := by omega
      simp only [h1, if_false, h2, decide_True, Bool.true_and]
      obtain ⟨s, hs⟩ : ∃ s, j = k + s := ⟨j - k, by omega⟩
      subst hs
      rw [Nat.add_sub_cancel_left]
      cases s with
      | zero =>
        have a1 : (2 * q + 1) % 2 = 1 := by omega
        have a2 : (2 * q) % 2 = 0 := by omega
        simp [a1, a2]
      | succ s =>
        have e1 : (2 * q + 1) / 2 = q := by omega
        have e2 : (2 * q) / 2 = q := by omega
        rw [Nat.testBit_succ, Nat.testBit_succ, e1, e2]
        have : k + (s + 1) ≠ k := by omega
        simp [this]

theorem sub64_one {x : Nat} (h0 : x ≠ 0) (hx : x < 2 ^ 64) : sub64 x 1 = x - 1 := by
  unfold sub64 U64
  omega

theorem testBit_not64 (x n : Nat) :
    (not64 x).testBit n = (decide (n < 64) && !x.testBit n) := by
  unfold not64 U64
  rw [Nat.testBit_xor, Nat.testBit_two_pow_sub_one, Nat.testBit_mod_two_pow]
  by_cases h : n < 64 <;> simp [h]

theorem testBit_possible_lt {P : position} {n : Nat} (h : (possible P).testBit n = true) :
    n < 49 := by
  unfold possible at h
  rw [Nat.testBit_and, testBit_board_mask] at h
  simp only [Bool.and_eq_true, decide_eq_true_eq] at h
  exact h.2.1

/-- The choice made by `possibleNonLosingMoves()` among the possible moves `poss`, given the
winning cells `opp` of the opponent and the forced moves `F = poss & opp`. -/
theorem testBit_nonLosing {poss opp F : Nat} (hF : F = poss &&& opp)
    (hposs : ∀ k, poss.testBit k = true → k < 64) (n : Nat) :
    (if (F != 0) = true then
        (if (F &&& sub64 F 1 != 0) = true then 0 else F &&& not64 (opp >>> 1))
      else poss &&& not64 (opp >>> 1)).testBit n = true ↔
      poss.testBit n = true ∧ opp.testBit (n + 1) = false ∧ ∀ m, F.testBit m = true → m = n := by
  have hFp : ∀ k, F.testBit k = true → poss.testBit k = true := by
    intro k hk
    rw [hF, Nat.testBit_and] at hk
    simp only [Bool.and_eq_true] at hk
    exact hk.1
  have hlt : F < 2 ^ 64 := by
    apply Nat.lt_pow_two_of_testBit
    intro i hi
    by_contra h
    have := hposs i (hFp i (by simpa using h))
    omega
  have hnot : ∀ k, poss.testBit k = true →
      ((not64 (opp >>> 1)).testBit k = !opp.testBit (k + 1)) := by
    intro k hk
    have := hposs k hk
    rw [testBit_not64, Nat.testBit_shiftRight, Nat.add_comm 1 k]
    simp [this]
  by_cases h0 : F = 0
  · have e0 : (F != 0) = false := by simp [h0]
    rw [e0]
    simp only [Bool.false_eq_true, if_false]
    rw [Nat.testBit_and]
    simp only [Bool.and_eq_true]
    constructor
    · rintro ⟨h1, h2⟩
      rw [hnot n h1] at h2
      refine ⟨h1, by simpa using h2, ?_⟩
      intro m hm
      rw [h0, Nat.zero_testBit] at hm
      exact Bool.noConfusion hm
    · rintro ⟨h1, h2, -⟩
      refine ⟨h1, ?_⟩
      rw [hnot n h1, h2]; rfl
  · have e0 : (F != 0) = true := by simp [h0]
    rw [e0, if_pos rfl, sub64_one h0 hlt]
    obtain ⟨k, hk, hlow⟩ := and_pred_testBit h0
    by_cases h1 : F &&& (F - 1) = 0
    · have e1 : (F &&& (F - 1) != 0) = false := by simp [h1]
      rw [e1]
      simp only [Bool.false_eq_true, if_false]
      have only : ∀ m, F.testBit m = true → m = k := by
        intro m hm
        have := hlow m
        rw [h1, Nat.zero_testBit, hm] at this
        by_contra hne
        simp [hne] at this
      have hkp := hFp k hk
      rw [Nat.testBit_and]
      simp only [Bool.and_eq_true]
      constructor
      · rintro ⟨h2, h3⟩
        have hnk := only n h2
        subst hnk
        rw [hnot n hkp] at h3
        exact ⟨hkp, by simpa using h3, only⟩
      · rintro ⟨h2, h3, h4⟩
        have hnk := h4 k hk
        subst hnk
        refine ⟨hk, ?_⟩
        rw [hnot k h2, h3]; rfl
    · have e1 : (F &&& (F - 1) != 0) = true := by simp [h1]
      rw [e1, if_pos rfl, Nat.zero_testBit]
      simp only [Bool.false_eq_true, false_iff, not_and]
      intro _ _ hall
      obtain ⟨j, hj⟩ := Nat.ne_zero_implies_bit_true h1
      rw [hlow j] at hj
      simp only [Bool.and_eq_true, decide_eq_true_eq] at hj
      have a := hall j hj.1
      have b := hall k hk
      exact hj.2 (by omega)

/-- The cells kept by `possibleNonLosingMoves()`: a possible move that is not
right below a winning cell of the opponent and that no winning cell of the
opponent among the possible moves differs from. -/
theorem testBit_possibleNonLosingMoves (P : position) (n : Nat) :
    (possibleNonLosingMoves P).testBit n = true ↔
      (possible P).testBit n = true ∧ (opponent_winning_position P).testBit (n + 1) = false
        ∧ ∀ m, (possible P &&& opponent_winning_position P).testBit m = true → m = n :=
  testBit_nonLosing rfl (fun k hk => by have := testBit_possible_lt hk; omega) n


/-- A bit of `compute_winning_position` depends on the mask through that bit of the mask only. -/
theorem testBit_compute_winning_position_congr {pos m1 m2 n : Nat} (hn : n < 64)
    (h : m1.testBit n = m2.testBit n) :
    (compute_winning_position pos m1).testBit n = (compute_winning_position pos m2).testBit n := by
  rw [Bool.eq_iff_iff, testBit_compute_winning_position hn, testBit_compute_winning_position hn, h]

theorem testBit_compute_winning_position_free {pos mask n : Nat} (hn : n < 64)
    (h : (compute_winning_position pos mask).testBit n = true) :
    board_mask.testBit n ≠ mask.testBit n :=
  ((testBit_compute_winning_position hn).mp h).2

theorem WellFormed.landingCell_eq {P : position} (wf : WellFormed P) {c : Nat} (hc : c < WIDTH) :
    landingCell P c = c * 7 + height P.mask c := by
  unfold landingCell HEIGHT
  rw [wf.lowestEmpty_eq hc]
  omega

/-- After a move in column `c` the opponent can win at once iff one of its winning cells is a
possible move of another column, or lies right above the cell just played. -/
theorem WellFormed.canWinNext_playCol {P : position} (wf : WellFormed P) {c : Nat}
    (hc : c < WIDTH) (hp : canPlay P c = true) :
    canWinNext (playCol P c) = true ↔
      (∃ m, (possible P &&& opponent_winning_position P).testBit m = true
          ∧ m ≠ c * 7 + height P.mask c)
        ∨ (opponent_winning_position P).testBit (c * 7 + height P.mask c + 1) = true := by
  have hh := (wf.canPlay_iff hc).mp hp
  have hc7 : c < 7 := hc
  have wf' := wf.after_playCol hc hp
  have hposs := wf'.testBit_possible
  have hW : ∀ n, n < 64 → n ≠ c * 7 + height P.mask c →
      (winning_position (playCol P c)).testBit n = (opponent_winning_position P).testBit n := by
    intro n hn hne
    unfold winning_position opponent_winning_position
    rw [wf.playCol_eq hc hp]
    apply testBit_compute_winning_position_congr hn
    show (P.mask ||| 2 ^ (c * 7 + height P.mask c)).testBit n = _
    rw [Nat.testBit_or, Nat.testBit_two_pow]
    have : ¬ c * 7 + height P.mask c = n := fun h => hne h.symm
    simp [this]
  have hht : ∀ c', c' < 7 → height (playCol P c).mask c'
      = if c' = c then height P.mask c + 1 else height P.mask c' := by
    intro c' h'
    rw [wf.playCol_eq hc hp]
    exact (wf.height_play hc hp h').2
  unfold canWinNext
  rw [bne_zero_iff_testBit]
  constructor
  · rintro ⟨n, hn⟩
    rw [Nat.testBit_and] at hn
    simp only [Bool.and_eq_true] at hn
    obtain ⟨hw, hp'⟩ := hn
    rw [hposs] at hp'
    simp only [decide_eq_true_eq] at hp'
    obtain ⟨h49, hrow, hlt⟩ := hp'
    rw [hht _ (by omega)] at hrow hlt
    by_cases hcol : n / 7 = c
    · rw [if_pos hcol] at hrow hlt
      right
      have e : n = c * 7 + height P.mask c + 1 := by omega
      rw [hW n (by omega) (by omega)] at hw
      rw [← e]; exact hw
    · rw [if_neg hcol] at hrow hlt
      left
      refine ⟨n, ?_, by omega⟩
      rw [hW n (by omega) (fun h => hcol (by omega))] at hw
      rw [Nat.testBit_and, wf.testBit_possible, hw]
      simp only [Bool.and_true, decide_eq_true_eq]
      exact ⟨h49, hrow, hlt⟩
  · rintro (⟨m, hm, hne⟩ | h)
    · rw [Nat.testBit_and] at hm
      simp only [Bool.and_eq_true] at hm
      obtain ⟨hp', hw⟩ := hm
      rw [wf.testBit_possible] at hp'
      simp only [decide_eq_true_eq] at hp'
      obtain ⟨h49, hrow, hlt⟩ := hp'
      have hcol : m / 7 ≠ c := fun h => hne (by subst h; omega)
      refine ⟨m, ?_⟩
      rw [Nat.testBit_and, hW m (by omega) hne, hw, hposs, hht _ (by omega), if_neg hcol]
      simp only [Bool.true_and, decide_eq_true_eq]
      exact ⟨h49, hrow, hlt⟩
    · have hfree := testBit_compute_winning_position_free
        (show c * 7 + height P.mask c + 1 < 64 by omega) h
      have hm : P.mask.testBit (c * 7 + height P.mask c + 1) = false := by
        rw [wf.testBit_mask]
        simp only [decide_eq_false_iff_not, not_and]
        intro _
        by_cases h5 : height P.mask c = 5
        · have : (c * 7 + height P.mask c + 1) / 7 = c := by omega
          rw [this]; omega
        · have : (c * 7 + height P.mask c + 1) / 7 = c := by omega
          rw [this]; omega
      rw [hm, testBit_board_mask] at hfree
      simp only [ne_eq, decide_eq_false_iff_not, not_not] at hfree
      refine ⟨c * 7 + height P.mask c + 1, ?_⟩
      rw [Nat.testBit_and, hW _ (by omega) (by omega), h, hposs]
      have e1 : (c * 7 + height P.mask c + 1) / 7 = c := by omega
      rw [e1, hht c hc7, if_pos rfl]
      simp only [Bool.true_and, decide_eq_true_eq]
      omega


theorem eq_zero_of_testBit {x : Nat} (h : ∀ n, x.testBit n = false) : x = 0 := by
  apply Nat.eq_of_testBit_eq
  intro n
  rw [h n, Nat.zero_testBit]

theorem WellFormed.testBit_possible_landing {P : position} (wf : WellFormed P) {c : Nat}
    (hc : c < WIDTH) (hp : canPlay P c = true) :
    (possible P).testBit (c * 7 + height P.mask c) = true := by
  have hh := (wf.canPlay_iff hc).mp hp
  have hc7 : c < 7 := hc
  rw [wf.testBit_possible]
  have e1 : (c * 7 + height P.mask c) / 7 = c := by omega
  rw [e1]
  simp only [decide_eq_true_eq]
  omega

/-- A possible move is the landing cell of a playable column of the board. -/
theorem WellFormed.possible_is_landing {P : position} (wf : WellFormed P) {n : Nat}
    (h : (possible P).testBit n = true) :
    n / 7 < WIDTH ∧ canPlay P (n / 7) = true ∧ n = landingCell P (n / 7) := by
  rw [wf.testBit_possible] at h
  simp only [decide_eq_true_eq] at h
  have hc : n / 7 < WIDTH := by unfold WIDTH; omega
  refine ⟨hc, (wf.canPlay_iff hc).mpr h.2.2, ?_⟩
  rw [wf.landingCell_eq hc]
  omega

/-- The landing cell of a playable column is kept by `possibleNonLosingMoves()` iff the move
leaves the opponent no immediate win. -/
theorem WellFormed.nonLosing_iff {P : position} (wf : WellFormed P) {c : Nat} (hc : c < WIDTH)
    (hp : canPlay P c = true) :
    (possibleNonLosingMoves P).testBit (landingCell P c) = true ↔
      canWinNext (playCol P c) = false := by
  rw [wf.landingCell_eq hc, testBit_possibleNonLosingMoves, ← Bool.not_eq_true (canWinNext _),
    wf.canWinNext_playCol hc hp]
  constructor
  · rintro ⟨-, h2, h3⟩ (⟨m, hm, hne⟩ | h)
    · exact hne (h3 m hm)
    · rw [h2] at h; exact Bool.noConfusion h
  · intro h
    refine ⟨wf.testBit_possible_landing hc hp, ?_, ?_⟩
    · cases hb : (opponent_winning_position P).testBit (c * 7 + height P.mask c + 1)
      · rfl
      · exact absurd (Or.inr hb) h
    · intro m hm
      by_contra hne
      exact h (Or.inl ⟨m, hm, hne⟩)

theorem WellFormed.nonLosing_landing {P : position} (wf : WellFormed P) {n : Nat}
    (h : (possibleNonLosingMoves P).testBit n = true) :
    ∃ c, c < WIDTH ∧ canPlay P c = true ∧ n = landingCell P c := by
  have := wf.possible_is_landing ((testBit_possibleNonLosingMoves P n).mp h).1
  exact ⟨n / 7, this⟩

theorem WellFormed.opponentWinsAt_iff {P : position} (wf : WellFormed P) {c : Nat}
    (hc : c < WIDTH) :
    opponentWinsAt P c = true ↔
      canPlay P c = true ∧
        (possible P &&& opponent_winning_position P).testBit (landingCell P c) = true := by
  unfold opponentWinsAt
  rw [Bool.and_eq_true, Nat.testBit_and, Bool.and_eq_true]
  constructor
  · rintro ⟨h1, h2⟩
    refine ⟨h1, ?_, h2⟩
    rw [wf.landingCell_eq hc]
    exact wf.testBit_possible_landing hc h1
  · rintro ⟨h1, -, h2⟩
    exact ⟨h1, h2⟩

theorem WellFormed.landingCell_inj {P : position} (wf : WellFormed P) {c1 c2 : Nat}
    (h1 : c1 < WIDTH) (h2 : c2 < WIDTH) (hp1 : canPlay P c1 = true) (hp2 : canPlay P c2 = true)
    (h : landingCell P c1 = landingCell P c2) : c1 = c2 := by
  rw [wf.landingCell_eq h1, wf.landingCell_eq h2] at h
  have a := (wf.canPlay_iff h1).mp hp1
  have b := (wf.canPlay_iff h2).mp hp2
  omega

/-- Claim C8. In a reachable position `P` with `canWinNext()` false, for every
playable column `c` of the board, the landing cell of `c` is a member of
`possibleNonLosingMoves()` iff the position after `playCol(c)` has
`canWinNext()` false; and every bit of the result is the landing cell of a
playable column. -/
theorem possibleNonLosingMoves_members (P : position) (hP : Reachable P)
    (_hw : canWinNext P = false) :
    (∀ c, c < WIDTH → canPlay P c = true →
      ((possibleNonLosingMoves P).testBit (landingCell P c) = true ↔
        canWinNext (playCol P c) = false))
    ∧ (∀ n, (possibleNonLosingMoves P).testBit n = true →
        ∃ c, c < WIDTH ∧ canPlay P c = true ∧ n = landingCell P c) :=
  ⟨fun _ hc hp => hP.wellFormed.nonLosing_iff hc hp, fun _ h => hP.wellFormed.nonLosing_landing h⟩

/-- Claim C8 at the position after `"112111422"` and its second column: the
move there leaves the opponent the win in the third column, and its landing
cell is no member of the result. -/
theorem possibleNonLosingMoves_members_witness :
    Reachable (playSeq position.empty "112111422").2 ∧
    canWinNext (playSeq position.empty "112111422").2 = false ∧
    ((possibleNonLosingMoves (playSeq position.empty "112111422").2).testBit
        (landingCell (playSeq position.empty "112111422").2 1) = true ↔
      canWinNext (playCol (playSeq position.empty "112111422").2 1) = false) :=
  ⟨reachable_playSeq _, by decide,
    (possibleNonLosingMoves_members _ (reachable_playSeq _) (by decide)).1 1
      (by decide) (by decide)⟩

/-- Claim C7 as stated fails at the position after `"112111422"`: the player
to move cannot win, the opponent has one playable winning cell only, the
bottom cell of the third column, and wins right above it as well; the result
is `0`, with fewer than two threatened columns, and not that single cell. -/
theorem possibleNonLosingMoves_single_threat_empty :
    (playSeq position.empty "112111422").1 = 9
    ∧ canWinNext (playSeq position.empty "112111422").2 = false
    ∧ (List.range WIDTH).filter (opponentWinsAt (playSeq position.empty "112111422").2) = [2]
    ∧ possibleNonLosingMoves (playSeq position.empty "112111422").2 = 0
    ∧ ¬ (possibleNonLosingMoves (playSeq position.empty "112111422").2 = 0 ↔
          ∃ c1, c1 < WIDTH ∧ ∃ c2, c2 < WIDTH ∧ c1 ≠ c2
            ∧ opponentWinsAt (playSeq position.empty "112111422").2 c1 = true
            ∧ opponentWinsAt (playSeq position.empty "112111422").2 c2 = true)
    ∧ ¬ (possibleNonLosingMoves (playSeq position.empty "112111422").2
          = 2 ^ landingCell (playSeq position.empty "112111422").2 2) := by
  decide

/-- Claim C7, amended. In a reachable position with `canWinNext()` false,
`possibleNonLosingMoves()` returns `0` if the opponent has immediately
winning cells in two or more distinct playable columns; when the opponent has
exactly one playable winning cell, the result is that single cell, unless the
cell right above it is a winning cell of the opponent too, in which case the
result is `0`; and the result is `0` exactly when every playable column
leaves the opponent an immediate win. -/
theorem possibleNonLosingMoves_forced (P : position) (hP : Reachable P)
    (_hw : canWinNext P = false) :
    ((∃ c1, c1 < WIDTH ∧ ∃ c2, c2 < WIDTH ∧ c1 ≠ c2
        ∧ opponentWinsAt P c1 = true ∧ opponentWinsAt P c2 = true) →
      possibleNonLosingMoves P = 0)
    ∧ (∀ c, c < WIDTH → opponentWinsAt P c = true →
        (∀ c', c' < WIDTH → opponentWinsAt P c' = true → c' = c) →
        possibleNonLosingMoves P
          = if (opponent_winning_position P).testBit (landingCell P c + 1) = true then 0
            else 2 ^ landingCell P c)
    ∧ (possibleNonLosingMoves P = 0 ↔
        ∀ c, c < WIDTH → canPlay P c = true → canWinNext (playCol P c) = true) := by
  have wf := hP.wellFormed
  refine ⟨?_, ?_, ?_⟩
  · rintro ⟨c1, h1, c2, h2, hne, w1, w2⟩
    rw [wf.opponentWinsAt_iff h1] at w1
    rw [wf.opponentWinsAt_iff h2] at w2
    apply eq_zero_of_testBit
    intro n
    cases hb : (possibleNonLosingMoves P).testBit n
    · rfl
    · exfalso
      have h3 := ((testBit_possibleNonLosingMoves P n).mp hb).2.2
      have e1 := h3 _ w1.2
      have e2 := h3 _ w2.2
      exact hne (wf.landingCell_inj h1 h2 w1.1 w2.1 (e1.trans e2.symm))
  · intro c hc hw hone
    have hw' := (wf.opponentWinsAt_iff hc).mp hw
    have only : ∀ m, (possible P &&& opponent_winning_position P).testBit m = true →
        m = landingCell P c := by
      intro m hm
      have hm' := hm
      rw [Nat.testBit_and, Bool.and_eq_true] at hm'
      obtain ⟨hcol, hcan, hmeq⟩ := wf.possible_is_landing hm'.1
      have : opponentWinsAt P (m / 7) = true := by
        rw [wf.opponentWinsAt_iff hcol, ← hmeq]
        exact ⟨hcan, hm⟩
      rw [hmeq, hone _ hcol this]
    have hposs : (possible P).testBit (landingCell P c) = true := by
      have := hw'.2
      rw [Nat.testBit_and, Bool.and_eq_true] at this
      exact this.1
    split
    · rename_i hab
      apply eq_zero_of_testBit
      intro n
      cases hb : (possibleNonLosingMoves P).testBit n
      · rfl
      · exfalso
        have h3 := (testBit_possibleNonLosingMoves P n).mp hb
        have e := h3.2.2 _ hw'.2
        rw [← e, hab] at h3
        exact Bool.noConfusion h3.2.1
    · rename_i hab
      apply Nat.eq_of_testBit_eq
      intro n
      rw [Nat.testBit_two_pow, Bool.eq_iff_iff, testBit_possibleNonLosingMoves]
      simp only [decide_eq_true_eq]
      constructor
      · rintro ⟨-, -, h3⟩
        exact h3 _ hw'.2
      · intro e
        subst e
        refine ⟨hposs, by simpa using hab, only⟩
  · constructor
    · intro h0 c hc hp
      have := wf.nonLosing_iff hc hp
      rw [h0, Nat.zero_testBit] at this
      cases hb : canWinNext (playCol P c)
      · exact absurd (this.mpr hb) (by simp)
      · rfl
    · intro h
      apply eq_zero_of_testBit
      intro n
      cases hb : (possibleNonLosingMoves P).testBit n
      · rfl
      · exfalso
        obtain ⟨c, hc, hp, e⟩ := wf.nonLosing_landing hb
        rw [e] at hb
        have := (wf.nonLosing_iff hc hp).mp hb
        rw [h c hc hp] at this
        exact Bool.noConfusion this

/-- Claim C7, amended, at the position after `"112111422"`: the single
playable winning cell of the opponent lies right below another one, and the
result is `0`. -/
theorem possibleNonLosingMoves_forced_witness :
    Reachable (playSeq position.empty "112111422").2 ∧
    canWinNext (playSeq position.empty "112111422").2 = false ∧
    possibleNonLosingMoves (playSeq position.empty "112111422").2
      = if (opponent_winning_position (playSeq position.empty "112111422").2).testBit
            (landingCell (playSeq position.empty "112111422").2 2 + 1) = true then 0
        else 2 ^ landingCell (playSeq position.empty "112111422").2 2 :=
  ⟨reachable_playSeq _, by decide,
    (possibleNonLosingMoves_forced _ (reachable_playSeq _) (by decide)).2.1 2
      (by decide) (by decide) (by decide)⟩

/-! ### Immediate wins and possible moves -/

/-- In a well-formed position, the player to move can win at once iff some playable column of
the board is a winning move. -/
theorem WellFormed.canWinNext_iff_exists {P : position} (wf : WellFormed P) :
    canWinNext P = true ↔
      ∃ col, col < WIDTH ∧ canPlay P col = true ∧ isWinningMove P col = true := by
  unfold canWinNext
  rw [bne_zero_iff_testBit]
  constructor
  · rintro ⟨n, hn⟩
    rw [Nat.testBit_and, Bool.and_eq_true] at hn
    obtain ⟨hc, hp, e⟩ := wf.possible_is_landing hn.2
    refine ⟨n / 7, hc, hp, ?_⟩
    rw [wf.isWinningMove_eq hc hp, ← wf.landingCell_eq hc, ← e]
    exact hn.1
  · rintro ⟨col, hc, hp, hw⟩
    rw [wf.isWinningMove_eq hc hp] at hw
    refine ⟨col * 7 + height P.mask col, ?_⟩
    rw [Nat.testBit_and, hw, wf.testBit_possible_landing hc hp]
    rfl

/-- The test of the column loop at the top of `negamax` and `canWinNext()` agree. -/
theorem WellFormed.canWinNext_eq_any {P : position} (wf : WellFormed P) :
    canWinNext P = (List.range WIDTH).any (fun x => canPlay P x && isWinningMove P x) := by
  rw [Bool.eq_iff_iff, wf.canWinNext_iff_exists, List.any_eq_true]
  constructor
  · rintro ⟨col, hc, hp, hw⟩
    exact ⟨col, List.mem_range.mpr hc, by rw [hp, hw]; rfl⟩
  · rintro ⟨col, hc, h⟩
    rw [Bool.and_eq_true] at h
    exact ⟨col, List.mem_range.mp hc, h.1, h.2⟩

/-- Claim C11. In a reachable position, `canWinNext()` is true iff there is a
column `col` in `0..WIDTH-1` with `canPlay(col)` and `isWinningMove(col)`;
hence the column loop at the top of `negamax` and the `canWinNext()` test of
`solve` decide the same predicate. -/
theorem canWinNext_iff_winning_column (P : position) (hP : Reachable P) :
    (canWinNext P = true ↔
      ∃ col, col < WIDTH ∧ canPlay P col = true ∧ isWinningMove P col = true)
    ∧ canWinNext P = (List.range WIDTH).any (fun x => canPlay P x && isWinningMove P x) :=
  ⟨hP.wellFormed.canWinNext_iff_exists, hP.wellFormed.canWinNext_eq_any⟩

/-- Claim C11 at the position after `"121212"`, where the first column wins. -/
theorem canWinNext_iff_winning_column_witness :
    Reachable (playSeq position.empty "121212").2 ∧
    canWinNext (playSeq position.empty "121212").2 = true ∧
    ∃ col, col < WIDTH ∧ canPlay (playSeq position.empty "121212").2 col = true
      ∧ isWinningMove (playSeq position.empty "121212").2 col = true :=
  ⟨reachable_playSeq _, by decide,
    (canWinNext_iff_winning_column _ (reachable_playSeq _)).1.mp (by decide)⟩

/-- Claim C16. In a reachable position, `possible() = (mask + bottom_mask) &
board_mask` has, in each column of the board that is not full, exactly one
bit set, at the lowest unoccupied cell of the column, and no bit set in a
full column, in the guard row, or beyond the columns of the board. -/
theorem possible_one_bit_per_column (P : position) (hP : Reachable P) :
    possible P = ((P.mask + bottom_mask) % U64) &&& board_mask
    ∧ (∀ c r, c < WIDTH → r ≤ HEIGHT →
        ((possible P).testBit (r + c * (HEIGHT + 1)) = true ↔
          canPlay P c = true ∧ r = lowestEmpty P.mask c))
    ∧ (∀ c, c < WIDTH → canPlay P c = true → lowestEmpty P.mask c < HEIGHT
        ∧ P.mask.testBit (lowestEmpty P.mask c + c * (HEIGHT + 1)) = false
        ∧ ∀ r, r < lowestEmpty P.mask c → P.mask.testBit (r + c * (HEIGHT + 1)) = true)
    ∧ (∀ n, WIDTH * (HEIGHT + 1) ≤ n → (possible P).testBit n = false) := by
  have wf := hP.wellFormed
  refine ⟨rfl, ?_, ?_, ?_⟩
  · intro c r hc hr
    have hc7 : c < 7 := hc
    have hr7 : r ≤ 6 := hr
    have hh := height_le P.mask c
    rw [wf.lowestEmpty_eq hc, wf.canPlay_iff hc, wf.testBit_possible]
    have e1 : (r + c * (HEIGHT + 1)) / 7 = c := by unfold HEIGHT; omega
    have e2 : (r + c * (HEIGHT + 1)) % 7 = r := by unfold HEIGHT; omega
    rw [e1, e2]
    simp only [decide_eq_true_eq, HEIGHT]
    constructor
    · rintro ⟨-, h1, h2⟩; exact ⟨h2, h1⟩
    · rintro ⟨h1, h2⟩; exact ⟨by omega, h2, h1⟩
  · intro c hc hp
    have hc7 : c < 7 := hc
    have hh := (wf.canPlay_iff hc).mp hp
    rw [wf.lowestEmpty_eq hc]
    have e1 : ∀ r, r < 7 → (r + c * (HEIGHT + 1)) / 7 = c := by
      intro r hr; unfold HEIGHT; omega
    have e2 : ∀ r, r < 7 → (r + c * (HEIGHT + 1)) % 7 = r := by
      intro r hr; unfold HEIGHT; omega
    refine ⟨hh, ?_, ?_⟩
    · rw [wf.testBit_mask, e1 _ (by omega), e2 _ (by omega)]
      simp
    · intro r hr
      rw [wf.testBit_mask, e1 _ (by omega), e2 _ (by omega)]
      simp only [decide_eq_true_eq, HEIGHT]
      omega
  · intro n hn
    rw [wf.testBit_possible]
    simp only [decide_eq_false_iff_not, not_and]
    intro h
    simp only [WIDTH, HEIGHT] at hn
    omega

/-- Claim C16 at the position after `"111111"`: its first column is full and
has no bit of `possible()`, its second column has the bit of its bottom cell. -/
theorem possible_one_bit_per_column_witness :
    Reachable (playSeq position.empty "111111").2 ∧
    ((possible (playSeq position.empty "111111").2).testBit (0 + 1 * (HEIGHT + 1)) = true ↔
      canPlay (playSeq position.empty "111111").2 1 = true
        ∧ 0 = lowestEmpty (playSeq position.empty "111111").2.mask 1) :=
  ⟨reachable_playSeq _,
    (possible_one_bit_per_column _ (reachable_playSeq _)).2.1 1 0 (by decide) (by decide)⟩

/-! ### The solver against the value of the game -/

set_option maxRecDepth 100000 in
/-- Claim C1, at two reachable positions. After `"33445"` the player to move
loses whatever is played, the game value is `-18`, and `solve` in strong mode
reaches the end of `negamax` without a `return`. After forty moves with two
cells left, the player to move loses on the last move, the game value is
`-1`, and `solve` in strong mode returns `0`. -/
theorem solve_strong_misses_game_value :
    (playSeq position.empty "33445").1 = 5
    ∧ canWinNext (playSeq position.empty "33445").2 = false
    ∧ gameValue (playSeq position.empty "33445").2 = -18
    ∧ solve (playSeq position.empty "33445").2 false = Outcome.noReturn
    ∧ (playSeq position.empty "2416727664435271572162664434217537351313").1 = 40
    ∧ canWinNext (playSeq position.empty "2416727664435271572162664434217537351313").2 = false
    ∧ gameValue (playSeq position.empty "2416727664435271572162664434217537351313").2 = -1
    ∧ solve (playSeq position.empty "2416727664435271572162664434217537351313").2 false
        = Outcome.value 0 := by
  decide

set_option maxRecDepth 100000 in
/-- Claim C3, at the position of the program's entry point, after
`"44444433"`: the player to move has no immediate win and `solve` in weak
mode reaches the end of `negamax` without a `return`, so that it yields none
of `-1`, `0`, `1`; in strong mode it does the same. -/
theorem solve_weak_yields_no_sign :
    (playSeq position.empty "44444433").1 = 8
    ∧ canWinNext (playSeq position.empty "44444433").2 = false
    ∧ solve (playSeq position.empty "44444433").2 true = Outcome.noReturn
    ∧ solve (playSeq position.empty "44444433").2 false = Outcome.noReturn
    ∧ (∀ v : Int, solve (playSeq position.empty "44444433").2 true ≠ Outcome.value v) := by
  refine ⟨by decide, by decide, by decide, by decide, ?_⟩
  intro v h
  have e : solve (playSeq position.empty "44444433").2 true = Outcome.noReturn := by decide
  rw [e] at h
  exact Outcome.noConfusion h

/-- Without a winning cell among the possible ones, no column is a winning
move, whatever the position. -/
theorem isWinningMove_false_of_canWinNext {P : position} (hw : canWinNext P = false)
    (col : Nat) : isWinningMove P col = false := by
  have h0 : winning_position P &&& possible P = 0 := by
    unfold canWinNext at hw
    simpa using hw
  unfold isWinningMove
  rw [h0, Nat.zero_and]
  rfl

/-- Without a winning cell among the possible ones, the column loop at the top
of `negamax` finds nothing, whatever the position. -/
theorem any_winning_false_of_canWinNext {P : position} (hw : canWinNext P = false) :
    (List.range WIDTH).any (fun x => canPlay P x && isWinningMove P x) = false := by
  rw [List.any_eq_false]
  intro x _
  rw [isWinningMove_false_of_canWinNext hw, Bool.and_false]
  exact Bool.false_ne_true

/-- Claim C14. In every position with `WIDTH*HEIGHT - 2` stones counted, so
that `nbMoves() = WIDTH*HEIGHT - 2`, in which the player to move has no
immediate winning move, `negamax(P, alpha, beta)` returns `0` for every
`alpha < beta`, and `solve(P, weak)` returns `0` in both modes. The position
need not be reachable, and what the code returns does not depend on the
opponent having no immediate winning move either. -/
theorem negamax_draw_with_two_cells_left (P : position)
    (hm : P.moves = WIDTH * HEIGHT - 2) (hw : canWinNext P = false) :
    nbMoves P = ((WIDTH * HEIGHT : Nat) : Int) - 2
    ∧ (∀ alpha beta : Int, alpha < beta → negamax P alpha beta = Outcome.value 0)
    ∧ (∀ weak : Bool, solve P weak = Outcome.value 0) := by
  have hmoves : P.moves = 40 := hm
  have hnb : nbMoves P = ((WIDTH * HEIGHT : Nat) : Int) - 2 := by
    unfold nbMoves
    rw [hmoves]
    decide
  have key : ∀ alpha beta : Int, alpha < beta → negamax P alpha beta = Outcome.value 0 := by
    intro alpha beta hab
    unfold negamax
    rw [hmoves]
    show negamaxFuel (2 + 1) P alpha beta = _
    unfold negamaxFuel
    rw [any_winning_false_of_canWinNext hw]
    simp only [Bool.false_eq_true, if_false, hab, not_true_eq_false, hw, hnb]
    simp
  refine ⟨hnb, key, ?_⟩
  intro weak
  unfold solve solveWith
  rw [hw, hnb]
  simp only [Bool.false_eq_true, if_false, WIDTH, HEIGHT]
  cases weak
  · simp only [Bool.false_eq_true, if_false]
    exact key _ _ (by decide)
  · simp only [if_true]
    exact key _ _ (by decide)

set_option maxRecDepth 100000 in
/-- Claim C14 at a reachable position with forty stones in which neither side
has an immediate winning move: no possible cell completes an alignment of the
player to move or of the opponent, the game value is `0`, and `negamax` and
`solve` in both modes return `0`. -/
theorem negamax_draw_with_two_cells_left_witness :
    Reachable (playSeq position.empty "5273212553524744215772347175366443661316").2 ∧
    (playSeq position.empty "5273212553524744215772347175366443661316").1 = 40 ∧
    (playSeq position.empty "5273212553524744215772347175366443661316").2.moves
      = WIDTH * HEIGHT - 2 ∧
    canWinNext (playSeq position.empty "5273212553524744215772347175366443661316").2 = false ∧
    opponent_winning_position (playSeq position.empty "5273212553524744215772347175366443661316").2
      &&& possible (playSeq position.empty "5273212553524744215772347175366443661316").2 = 0 ∧
    gameValue (playSeq position.empty "5273212553524744215772347175366443661316").2 = 0 ∧
    negamax (playSeq position.empty "5273212553524744215772347175366443661316").2 (-1) 1
      = Outcome.value 0 ∧
    solve (playSeq position.empty "5273212553524744215772347175366443661316").2 true
      = Outcome.value 0 ∧
    solve (playSeq position.empty "5273212553524744215772347175366443661316").2 false
      = Outcome.value 0 :=
  ⟨reachable_playSeq _, by decide, by decide, by decide, by decide, by decide,
    (negamax_draw_with_two_cells_left _ (by decide) (by decide)).2.1 (-1) 1 (by decide),
    (negamax_draw_with_two_cells_left _ (by decide) (by decide)).2.2 true,
    (negamax_draw_with_two_cells_left _ (by decide) (by decide)).2.2 false⟩

set_option maxRecDepth 100000 in
/-- Claim C13, at two reachable positions without an immediate win and the
window `(-1, 1)`. After `"33445"` the game value is `-18` and `negamax`
reaches the end of its body without a `return`. After forty moves the game
value is `-1`, which is not above `alpha = -1`, and `negamax` returns `0`,
which is above `alpha`. -/
theorem negamax_misses_documented_bounds :
    canWinNext (playSeq position.empty "33445").2 = false
    ∧ gameValue (playSeq position.empty "33445").2 = -18
    ∧ negamax (playSeq position.empty "33445").2 (-1) 1 = Outcome.noReturn
    ∧ canWinNext (playSeq position.empty "2416727664435271572162664434217537351313").2 = false
    ∧ gameValue (playSeq position.empty "2416727664435271572162664434217537351313").2 = -1
    ∧ negamax (playSeq position.empty "2416727664435271572162664434217537351313").2 (-1) 1
        = Outcome.value 0 := by
  decide

set_option maxRecDepth 100000 in
/-- Claim C17, at the position after `"33445"` with the window `(-18, 19)`:
the position has five stones and no immediate win, the window is clamped to
`(-17, 18)`, the exploration loop ends without a child score of `18` or more
and with the final `alpha = -17`, and `negamax` returns nothing: control
reaches the end of its body without a `return`. -/
theorem negamax_loop_end_without_return :
    (playSeq position.empty "33445").1 = 5
    ∧ canWinNext (playSeq position.empty "33445").2 = false
    ∧ Int.tdiv (-((WIDTH * HEIGHT : Nat) - 2 - nbMoves (playSeq position.empty "33445").2)) 2 = -17
    ∧ Int.tdiv ((WIDTH * HEIGHT : Nat) - 1 - nbMoves (playSeq position.empty "33445").2) 2 = 18
    ∧ exploreLoop (negamaxFuel 37) (playSeq position.empty "33445").2 18 (List.range WIDTH) (-17)
        = Sum.inr (-17)
    ∧ negamax (playSeq position.empty "33445").2 (-18) 19 = Outcome.noReturn
    ∧ negamax (playSeq position.empty "33445").2 (-18) 19 ≠ Outcome.value (-17) := by
  decide

set_option maxRecDepth 100000 in
/-- Claim C18, at two reachable positions in which the player to move has no
immediate winning move and loses to any reply. After `"131435"`, with six
stones, the game value is `-18`, below the lower bound `-(42 - 2 - 6)/2 =
-17` that `negamax` clamps `alpha` to. After forty moves the game value is
`-1`, below the bound `-(42 - 2 - 40)/2 = 0`. -/
theorem game_value_below_clamp :
    (playSeq position.empty "131435").1 = 6
    ∧ canWinNext (playSeq position.empty "131435").2 = false
    ∧ gameValue (playSeq position.empty "131435").2 = -18
    ∧ Int.tdiv (-((WIDTH * HEIGHT : Nat) - 2 - nbMoves (playSeq position.empty "131435").2)) 2
        = -17
    ∧ (playSeq position.empty "2416727664435271572162664434217537351313").1 = 40
    ∧ canWinNext (playSeq position.empty "2416727664435271572162664434217537351313").2 = false
    ∧ gameValue (playSeq position.empty "2416727664435271572162664434217537351313").2 = -1
    ∧ Int.tdiv (-((WIDTH * HEIGHT : Nat) - 2
        - nbMoves (playSeq position.empty "2416727664435271572162664434217537351313").2)) 2 = 0 := by
  decide

/-! ### Termination and assertions of the search -/

/-- The body of `negamax`: the part before the loop, then the loop. -/
theorem negamaxFuel_succ (fuel : Nat) (P : position) (alpha beta : Int) :
    negamaxFuel (fuel + 1) P alpha beta =
      match negamaxPre P alpha beta with
      | .inl out => out
      | .inr (a, b) =>
        match exploreLoop (negamaxFuel fuel) P b (List.range WIDTH) a with
        | .inl out => out
        | .inr _ => .noReturn := by
  rw [negamaxFuel]
  unfold negamaxPre
  simp only []
  split_ifs <;> (try simp only []) <;> (try split_ifs) <;> rfl

theorem negamaxPre_inr {P : position} {alpha beta a b : Int}
    (h : negamaxPre P alpha beta = .inr (a, b)) :
    a < b ∧ alpha < beta ∧ canWinNext P = false ∧ nbMoves P < ((WIDTH * HEIGHT : Nat) : Int) - 2 := by
  unfold negamaxPre at h
  simp only [] at h
  split_ifs at h <;> simp only [Sum.inr.injEq, Prod.mk.injEq, reduceCtorEq] at h <;>
    (obtain ⟨rfl, rfl⟩ := h; simp_all; try omega)

theorem negamaxPre_inl {P : position} {alpha beta : Int} {out : Outcome}
    (h : negamaxPre P alpha beta = .inl out) :
    (∃ v, out = .value v) ∨
      (out = .assertFailed ∧ (¬ alpha < beta ∨
        (canWinNext P = true ∧
          (List.range WIDTH).any (fun x => canPlay P x && isWinningMove P x) = false))) := by
  unfold negamaxPre at h
  simp only [] at h
  split_ifs at h <;> simp only [Sum.inl.injEq, reduceCtorEq] at h <;> subst h <;> simp_all

/-- An outcome of the exploration loop that is no returned value is the outcome of a call on a
child position, made with a window that is not empty. -/
theorem exploreLoop_inl {child : position → Int → Int → Outcome} {P : position} {beta : Int}
    {out : Outcome} :
    ∀ (cols : List Nat) (alpha : Int), alpha < beta →
      exploreLoop child P beta cols alpha = .inl out →
      (∃ v, out = .value v) ∨
        ∃ c, c ∈ cols ∧ canPlay P c = true ∧ ∃ a b, a < b ∧ child (playCol P c) a b = out := by
  intro cols
  induction cols with
  | nil => intro alpha _ h; simp [exploreLoop] at h
  | cons move rest ih =>
    intro alpha hab h
    rw [exploreLoop] at h
    by_cases hp : canPlay P move = true
    · simp only [hp, Bool.not_true, Bool.false_eq_true, if_false] at h
      cases hc : child (playCol P move) (-beta) (-alpha) with
      | value v =>
        rw [hc] at h
        simp only [] at h
        by_cases hs : -v ≥ beta
        · rw [if_pos hs] at h
          exact Or.inl ⟨-v, (Sum.inl.inj h).symm⟩
        · rw [if_neg hs] at h
          have hab' : (if -v > alpha then -v else alpha) < beta := by
            split <;> omega
          rcases ih _ hab' h with h' | ⟨c, hc', h'⟩
          · exact Or.inl h'
          · exact Or.inr ⟨c, List.mem_cons_of_mem _ hc', h'⟩
      | noReturn =>
        rw [hc] at h
        exact Or.inr ⟨move, List.mem_cons_self _ _, hp, -beta, -alpha, by omega,
          hc.trans (Sum.inl.inj h)⟩
      | assertFailed =>
        rw [hc] at h
        exact Or.inr ⟨move, List.mem_cons_self _ _, hp, -beta, -alpha, by omega,
          hc.trans (Sum.inl.inj h)⟩
      | outOfFuel =>
        rw [hc] at h
        exact Or.inr ⟨move, List.mem_cons_self _ _, hp, -beta, -alpha, by omega,
          hc.trans (Sum.inl.inj h)⟩
    · have hp' : canPlay P move = false := by simpa using hp
      simp only [hp', Bool.not_false, if_true] at h
      rcases ih _ hab h with h' | ⟨c, hc', h'⟩
      · exact Or.inl h'
      · exact Or.inr ⟨c, List.mem_cons_of_mem _ hc', h'⟩

/-- The exploration loop depends on the scores of the playable children only. -/
theorem exploreLoop_congr {f g : position → Int → Int → Outcome} {P : position} {beta : Int} :
    ∀ (cols : List Nat) (alpha : Int),
      (∀ c, c ∈ cols → canPlay P c = true → ∀ a b, f (playCol P c) a b = g (playCol P c) a b) →
      exploreLoop f P beta cols alpha = exploreLoop g P beta cols alpha := by
  intro cols
  induction cols with
  | nil => intro alpha _; rfl
  | cons move rest ih =>
    intro alpha h
    have ih' := fun a => ih a (fun c hc => h c (List.mem_cons_of_mem _ hc))
    rw [exploreLoop, exploreLoop]
    by_cases hp : canPlay P move = true
    · simp only [hp, Bool.not_true, Bool.false_eq_true, if_false]
      rw [h move (List.mem_cons_self _ _) hp]
      cases g (playCol P move) (-beta) (-alpha) <;> simp only [ih']
    · have hp' : canPlay P move = false := by simpa using hp
      simp only [hp', Bool.not_false, if_true]
      exact ih' _

theorem WellFormed.moves_playCol {P : position} (wf : WellFormed P) {c : Nat} (hc : c < WIDTH)
    (hp : canPlay P c = true) : (playCol P c).moves = P.moves + 1 := by
  rw [wf.playCol_eq hc hp]

/-- With one unit of fuel for the call itself and one for every stone short of
`WIDTH*HEIGHT - 2`, `negamax` does not run out of fuel, and more fuel does not change its
outcome. -/
theorem WellFormed.negamaxFuel_enough :
    ∀ (d : Nat) (P : position), WellFormed P → 40 - P.moves ≤ d →
      ∀ (k : Nat) (alpha beta : Int),
        negamaxFuel (d + 1 + k) P alpha beta = negamaxFuel (d + 1) P alpha beta
        ∧ negamaxFuel (d + 1) P alpha beta ≠ .outOfFuel := by
  intro d
  induction d with
  | zero =>
    intro P wf hd k alpha beta
    have hnb : ¬ nbMoves P < ((WIDTH * HEIGHT : Nat) : Int) - 2 := by
      rw [wf.nbMoves_eq]; simp only [WIDTH, HEIGHT]; omega
    rw [show 0 + 1 + k = k + 1 by omega, negamaxFuel_succ, negamaxFuel_succ]
    cases hpre : negamaxPre P alpha beta with
    | inl out =>
      refine ⟨rfl, ?_⟩
      rcases negamaxPre_inl hpre with ⟨v, rfl⟩ | ⟨rfl, -⟩ <;> simp
    | inr ab =>
      obtain ⟨a, b⟩ := ab
      exact absurd (negamaxPre_inr hpre).2.2.2 hnb
  | succ d ih =>
    intro P wf hd k alpha beta
    have hchild : ∀ c, c ∈ List.range WIDTH → canPlay P c = true → ∀ a b,
        negamaxFuel (d + 1 + k) (playCol P c) a b = negamaxFuel (d + 1) (playCol P c) a b
        ∧ negamaxFuel (d + 1) (playCol P c) a b ≠ .outOfFuel := by
      intro c hc hp a b
      have hc' := List.mem_range.mp hc
      exact ih _ (wf.after_playCol hc' hp) (by rw [wf.moves_playCol hc' hp]; omega) k a b
    rw [show d + 1 + 1 + k = (d + 1 + k) + 1 by omega, negamaxFuel_succ, negamaxFuel_succ]
    cases hpre : negamaxPre P alpha beta with
    | inl out =>
      refine ⟨rfl, ?_⟩
      rcases negamaxPre_inl hpre with ⟨v, rfl⟩ | ⟨rfl, -⟩ <;> simp
    | inr ab =>
      obtain ⟨a, b⟩ := ab
      simp only []
      rw [exploreLoop_congr (List.range WIDTH) a (fun c hc hp x y => (hchild c hc hp x y).1)]
      refine ⟨rfl, ?_⟩
      cases hl : exploreLoop (negamaxFuel (d + 1)) P b (List.range WIDTH) a with
      | inr v => simp
      | inl out =>
        simp only []
        rcases exploreLoop_inl _ _ (negamaxPre_inr hpre).1 hl with ⟨v, rfl⟩ | ⟨c, hc, hp, x, y, -, e⟩
        · simp
        · rw [← e]
          exact (hchild c hc hp x y).2

/-- In a well-formed position, a call of `negamax` with a window that is not empty fails no
assertion, nor does any call below it. -/
theorem WellFormed.negamaxFuel_asserts :
    ∀ (fuel : Nat) (P : position), WellFormed P → ∀ (alpha beta : Int), alpha < beta →
      negamaxFuel fuel P alpha beta ≠ .assertFailed := by
  intro fuel
  induction fuel with
  | zero => intro P _ alpha beta _; simp [negamaxFuel]
  | succ fuel ih =>
    intro P wf alpha beta hab
    rw [negamaxFuel_succ]
    cases hpre : negamaxPre P alpha beta with
    | inl out =>
      simp only []
      rcases negamaxPre_inl hpre with ⟨v, rfl⟩ | ⟨-, h | ⟨h1, h2⟩⟩
      · simp
      · exact absurd hab h
      · rw [wf.canWinNext_eq_any, h2] at h1
        exact Bool.noConfusion h1
    | inr ab =>
      obtain ⟨a, b⟩ := ab
      simp only []
      cases hl : exploreLoop (negamaxFuel fuel) P b (List.range WIDTH) a with
      | inr v => simp
      | inl out =>
        simp only []
        rcases exploreLoop_inl _ _ (negamaxPre_inr hpre).1 hl with ⟨v, rfl⟩ | ⟨c, hc, hp, x, y, hxy, e⟩
        · simp
        · rw [← e]
          exact ih _ (wf.after_playCol (List.mem_range.mp hc) hp) x y hxy

theorem solve_window {m : Nat} (hm : m ≤ 41) :
    Int.tdiv (-(((WIDTH * HEIGHT : Nat) : Int) - (m : Int))) 2
      < Int.tdiv (((WIDTH * HEIGHT : Nat) : Int) + 1 - (m : Int)) 2 := by
  interval_cases m <;> decide

/-- Claim C19. In a reachable position `P`, for all `alpha` and `beta`, the
recursion of `negamax(P, alpha, beta)` is well founded: every recursive call
is on a position with `nbMoves()` one larger; a recursion depth of the number
`WIDTH*HEIGHT - nbMoves()` of empty cells, which is at most 42, below the
first call is enough for the call to end, and a larger bound on the depth
does not change its outcome; hence `negamax` and `solve` end. -/
theorem negamax_recursion_bounded (P : position) (hP : Reachable P) (alpha beta : Int) :
    (∀ c, c < WIDTH → canPlay P c = true → nbMoves (playCol P c) = nbMoves P + 1)
    ∧ negamaxFuel (WIDTH * HEIGHT - P.moves + 1) P alpha beta ≠ Outcome.outOfFuel
    ∧ (∀ k, negamaxFuel (WIDTH * HEIGHT - P.moves + 1 + k) P alpha beta
        = negamaxFuel (WIDTH * HEIGHT - P.moves + 1) P alpha beta)
    ∧ (nbMoves P = (P.moves : Int) ∧ WIDTH * HEIGHT - P.moves ≤ 42)
    ∧ negamax P alpha beta ≠ Outcome.outOfFuel
    ∧ (∀ weak, solve P weak ≠ Outcome.outOfFuel) := by
  have wf := hP.wellFormed
  have hle := wf.moves_le
  have key : ∀ a b, negamax P a b ≠ Outcome.outOfFuel := by
    intro a b
    unfold negamax
    rw [show WIDTH * HEIGHT + 1 - P.moves = (WIDTH * HEIGHT - P.moves) + 1 by
      simp only [WIDTH, HEIGHT]; omega]
    exact (WellFormed.negamaxFuel_enough _ P wf (by simp only [WIDTH, HEIGHT]; omega) 0 a b).2
  refine ⟨?_, ?_, ?_, ⟨wf.nbMoves_eq, by simp only [WIDTH, HEIGHT]; omega⟩, key alpha beta, ?_⟩
  · intro c hc hp
    rw [(wf.after_playCol hc hp).nbMoves_eq, wf.nbMoves_eq, wf.moves_playCol hc hp]
    push_cast; rfl
  · exact (WellFormed.negamaxFuel_enough _ P wf (by simp only [WIDTH, HEIGHT]; omega) 0 alpha beta).2
  · intro k
    exact (WellFormed.negamaxFuel_enough _ P wf (by simp only [WIDTH, HEIGHT]; omega) k alpha beta).1
  · intro weak
    unfold solve solveWith
    split
    · simp
    · simp only []
      split <;> exact key _ _

/-- Claim C19 at the empty board and the window `(-1, 1)`. -/
theorem negamax_recursion_bounded_witness :
    Reachable position.empty ∧ solve position.empty true ≠ Outcome.outOfFuel :=
  ⟨Reachable.empty, (negamax_recursion_bounded position.empty Reachable.empty (-1) 1).2.2.2.2.2 true⟩

/-- Claim C20. In a reachable position `P` that is not full, in either mode,
`solve(P, weak)` does not end in a failed assertion: every call of `negamax`
made by it, directly or by recursion, that gets past its immediate-win check
finds `alpha < beta` and `!canWinNext()`. The same holds for every call of
`negamax` on `P` with `alpha < beta`. -/
theorem solve_never_fails_assertion (P : position) (hP : Reachable P)
    (hfree : nbMoves P < ((WIDTH * HEIGHT : Nat) : Int)) (weak : Bool) :
    solve P weak ≠ Outcome.assertFailed
    ∧ (∀ alpha beta : Int, alpha < beta → negamax P alpha beta ≠ Outcome.assertFailed) := by
  have wf := hP.wellFormed
  have key : ∀ a b : Int, a < b → negamax P a b ≠ Outcome.assertFailed :=
    fun a b hab => WellFormed.negamaxFuel_asserts _ P wf a b hab
  refine ⟨?_, key⟩
  have hm : P.moves ≤ 41 := by
    rw [wf.nbMoves_eq] at hfree
    simp only [WIDTH, HEIGHT] at hfree
    omega
  unfold solve solveWith
  split
  · simp
  · simp only []
    split
    · exact key _ _ (by decide)
    · rw [wf.nbMoves_eq]
      exact key _ _ (solve_window hm)

/-- Claim C20 at the empty board in weak mode. -/
theorem solve_never_fails_assertion_witness :
    Reachable position.empty ∧ nbMoves position.empty < ((WIDTH * HEIGHT : Nat) : Int) ∧
    solve position.empty true ≠ Outcome.assertFailed :=
  ⟨Reachable.empty, by decide,
    (solve_never_fails_assertion position.empty Reachable.empty (by decide) true).1⟩

/-! ### The loop of `popcount` -/

theorem countP_range_remove (p : Nat → Bool) (k : Nat) :
    ∀ n, k < n → p k = true →
      (List.range n).countP (fun j => p j && decide (j ≠ k)) + 1 = (List.range n).countP p := by
  intro n
  induction n with
  | zero => intro h; omega
  | succ n ih =>
    intro hk hp
    rw [List.range_succ, List.countP_append, List.countP_append]
    by_cases hkn : k = n
    · subst hkn
      have e : (List.range k).countP (fun j => p j && decide (j ≠ k)) = (List.range k).countP p := by
        apply List.countP_congr
        intro x hx
        have : x ≠ k := by have := List.mem_range.mp hx; omega
        simp [this]
      rw [e]
      simp [hp]
    · have := ih (by omega) hp
      have e : List.countP (fun j => p j && decide (j ≠ k)) [n] = List.countP p [n] := by
        apply List.countP_congr
        intro x hx
        have : x ≠ k := by
          have := List.mem_singleton.mp hx
          omega
        simp [this]
      rw [e]
      omega

theorem bitCount_le (x : Nat) : bitCount x ≤ 64 := by
  unfold bitCount
  exact (List.countP_le_length _).trans (by simp)

theorem bitCount_zero : bitCount 0 = 0 := by
  unfold bitCount
  simp

theorem testBit_lt_of_lt {x n : Nat} (hx : x < 2 ^ 64) (h : x.testBit n = true) : n < 64 := by
  by_contra hn
  have : x < 2 ^ n := lt_of_lt_of_le hx (Nat.pow_le_pow_right (by norm_num) (by omega))
  rw [Nat.testBit_lt_two_pow this] at h
  exact Bool.noConfusion h

/-- One round of the loop of `popcount` clears one bit. -/
theorem bitCount_and_pred {m : Nat} (h0 : m ≠ 0) (hm : m < 2 ^ 64) :
    bitCount (m &&& (m - 1)) + 1 = bitCount m := by
  obtain ⟨k, hk, hlow⟩ := and_pred_testBit h0
  have hk64 := testBit_lt_of_lt hm hk
  unfold bitCount
  rw [← countP_range_remove (fun i => m.testBit i) k 64 hk64 hk]
  congr 1
  apply List.countP_congr
  intro x _
  rw [hlow]

/-- Setting a bit that is not set adds one to the number of bits. -/
theorem bitCount_or_two_pow {x j : Nat} (hj : j < 64) (h : x.testBit j = false) :
    bitCount (x ||| 2 ^ j) = bitCount x + 1 := by
  unfold bitCount
  rw [← countP_range_remove (fun i => (x ||| 2 ^ j).testBit i) j 64 hj
    (by simp [Nat.testBit_or, Nat.testBit_two_pow_self])]
  congr 1
  apply List.countP_congr
  intro i _
  rw [Nat.testBit_or, Nat.testBit_two_pow]
  by_cases hij : j = i
  · subst hij; simp [h]
  · have : i ≠ j := fun e => hij e.symm
    simp [hij, this]

theorem popcountLoop_eq :
    ∀ (fuel m c : Nat), m < 2 ^ 64 → bitCount m ≤ fuel → c + bitCount m < 2 ^ 32 →
      popcountLoop fuel m c = c + bitCount m := by
  intro fuel
  induction fuel with
  | zero =>
    intro m c _ h _
    rw [popcountLoop]
    omega
  | succ fuel ih =>
    intro m c hm hf hc
    rw [popcountLoop]
    by_cases h0 : m = 0
    · subst h0
      rw [if_pos rfl, bitCount_zero]
      rfl
    · rw [if_neg h0, sub64_one h0 hm]
      have hb := bitCount_and_pred h0 hm
      have hc1 : (c + 1) % U32 = c + 1 := Nat.mod_eq_of_lt (by unfold U32; omega)
      have hle : m &&& (m - 1) < 2 ^ 64 := lt_of_le_of_lt Nat.and_le_left hm
      rw [hc1, ih _ _ hle (by omega) (by omega)]
      omega

/-- The function `popcount` counts the bits of a `uint64_t`. -/
theorem popcount_eq {m : Nat} (hm : m < 2 ^ 64) : popcount m = bitCount m := by
  unfold popcount
  rw [popcountLoop_eq 64 m 0 hm (bitCount_le m) (by have := bitCount_le m; omega)]
  omega

/-! ### The invariant of the data model -/

theorem colBits_column_mask {col : Nat} (hc : col < WIDTH) (c : Nat) :
    colBits (column_mask col) c = if c = col then 63 else 0 := by
  apply Nat.eq_of_testBit_eq
  intro r
  rw [testBit_colBits, testBit_column_mask col _ hc]
  split
  · rename_i h
    subst h
    rw [show (63 : Nat) = 2 ^ 6 - 1 by norm_num, Nat.testBit_two_pow_sub_one]
    by_cases h6 : r < 6
    · simp [h6, show r < 7 by omega]
    · by_cases h7 : r < 7 <;> simp [h6, h7]
  · rename_i h
    rw [Nat.zero_testBit]
    by_cases h7 : r < 7
    · have : ¬ (col * 7 ≤ c * 7 + r ∧ c * 7 + r < col * 7 + 6) := by omega
      simp [this]
    · simp [h7]

theorem column_step : ∀ c, c < 32 →
    ∃ k, k < 6 ∧ c.testBit k = false ∧ c ||| ((c + 1) &&& 63) = c ||| 2 ^ k := by
  decide

theorem lt_32_of_bits : ∀ c, c < 128 → c.testBit 5 = false → c.testBit 6 = false → c < 32 := by
  decide

/-- Whatever the stones of the column, `playCol` adds to `mask` one cell of the column that was
free, below the guard row. -/
theorem playCol_adds_one_bit {P : position} {col : Nat}
    (hg : ∀ n, P.mask.testBit n = true → n % (HEIGHT + 1) ≠ HEIGHT ∧ n < WIDTH * (HEIGHT + 1))
    (hc : col < WIDTH) (hp : canPlay P col = true) :
    ∃ k, k < 6 ∧ P.mask.testBit (col * 7 + k) = false
      ∧ (playCol P col).mask = P.mask ||| 2 ^ (col * 7 + k) := by
  have hc7 : col < 7 := hc
  have hlt : P.mask < 2 ^ 49 := by
    apply Nat.lt_pow_two_of_testBit
    intro i hi
    by_contra h
    have := (hg i (by simpa using h)).2
    simp only [WIDTH, HEIGHT] at this
    omega
  have h5 : (colBits P.mask col).testBit 5 = false := by
    rw [testBit_colBits]
    rw [canPlay_eq hc] at hp
    simpa using hp
  have h6 : (colBits P.mask col).testBit 6 = false := by
    rw [testBit_colBits]
    cases hb : P.mask.testBit (col * 7 + 6)
    · simp
    · have := (hg _ hb).1
      simp only [HEIGHT] at this
      omega
  have h32 := lt_32_of_bits _ (colBits_lt P.mask col) h5 h6
  obtain ⟨k, hk, hbit, hor⟩ := column_step _ h32
  refine ⟨k, hk, ?_, ?_⟩
  · have := testBit_colBits P.mask col k
    rw [hbit] at this
    simpa [show k < 7 by omega] using this.symm
  · show P.mask ||| (((P.mask + bottom_mask_col col) % U64) &&& column_mask col) = _
    apply eq_of_colBits
    intro c
    rw [colBits_or, colBits_or, colBits_and, colBits_column_mask hc, colBits_two_pow,
      bottom_mask_col_eq hc]
    have e1 : (col * 7 + k) / 7 = col := by omega
    have e2 : (col * 7 + k) % 7 = k := by omega
    rw [e1, e2]
    by_cases hcc : c = col
    · subst hcc
      rw [if_pos rfl, if_pos rfl]
      show colBits P.mask c ||| (colBits ((P.mask + 2 ^ (c * 7)) % 2 ^ 64) c &&& 63) = _
      rw [colBits_add_bottom_col hlt hc7 (by omega)]
      exact hor
    · have : ¬ col = c := fun h => hcc h.symm
      rw [if_neg hcc, if_neg this]
      simp

theorem inv_empty : Inv position.empty := by
  refine ⟨by decide, ?_, by decide⟩
  intro n h
  simp [position.empty] at h

theorem Inv.mask_lt_word {P : position} (h : Inv P) : P.mask < 2 ^ 64 := by
  apply Nat.lt_pow_two_of_testBit
  intro i hi
  by_contra hb
  have := (h.2.1 i (by simpa using hb)).2
  simp only [WIDTH, HEIGHT] at this
  omega

theorem Inv.preserved_by_playCol {P : position} (h : Inv P) {col : Nat} (hc : col < WIDTH)
    (hp : canPlay P col = true) : Inv (playCol P col) := by
  obtain ⟨hsub, hg, hmoves⟩ := h
  have hc7 : col < 7 := hc
  obtain ⟨k, hk, hfree, hmask⟩ := playCol_adds_one_bit hg hc hp
  have hlt : P.mask < 2 ^ 64 := Inv.mask_lt_word ⟨hsub, hg, hmoves⟩
  have hcur : (playCol P col).current_position = P.current_position ^^^ P.mask := rfl
  have hmv : (playCol P col).moves = (P.moves + 1) % U32 := rfl
  refine ⟨?_, ?_, ?_⟩
  · apply eq_zero_of_testBit
    intro n
    have h0 := congrArg (fun x => x.testBit n) hsub
    simp only [Nat.testBit_and, testBit_not64, Nat.zero_testBit] at h0
    rw [Nat.testBit_and, testBit_not64, hcur, hmask, Nat.testBit_xor, Nat.testBit_or]
    cases h1 : P.current_position.testBit n <;> cases h2 : P.mask.testBit n <;>
      by_cases h3 : n < 64 <;> simp_all
  · intro n hn
    rw [hmask, Nat.testBit_or, Nat.testBit_two_pow, Bool.or_eq_true] at hn
    rcases hn with hn | hn
    · exact hg n hn
    · simp only [decide_eq_true_eq] at hn
      subst hn
      simp only [WIDTH, HEIGHT]
      omega
  · have hor : P.mask ||| 2 ^ (col * 7 + k) < 2 ^ 64 :=
      Nat.or_lt_two_pow hlt (Nat.pow_lt_pow_right (by norm_num) (by omega))
    rw [hmv, hmask, popcount_eq hor, bitCount_or_two_pow (by omega) hfree, hmoves,
      popcount_eq hlt]
    have := bitCount_le P.mask
    exact Nat.mod_eq_of_lt (by unfold U32; omega)

/-- Claim C15. The predicate `Inv(P)`, that `current_position AND NOT mask` is
`0`, that `mask` has no bit in the guard row `HEIGHT` of a column nor at a bit
index of `WIDTH*(HEIGHT+1)` or more, and that `moves = popcount(mask)`, holds
for the empty position and is preserved by `playCol(col)` for every `col` in
`0..WIDTH-1` with `canPlay(col)`; hence it holds for every reachable
position. -/
theorem inv_holds_on_reachable :
    Inv position.empty
    ∧ (∀ (P : position) (col : Nat), Inv P → col < WIDTH → canPlay P col = true →
        Inv (playCol P col))
    ∧ (∀ P : position, Reachable P → Inv P) := by
  refine ⟨inv_empty, fun P col h hc hp => h.preserved_by_playCol hc hp, ?_⟩
  intro P hP
  induction hP with
  | empty => exact inv_empty
  | step col _ hc hp ih => exact ih.preserved_by_playCol hc hp

/-! ### The score of a move -/

theorem testBit_compute_winning_position_aligned {pos mask i : Nat} (hi : i < 64) :
    (compute_winning_position pos mask).testBit i = true ↔
      aligned pos i ∧ (board_mask.testBit i ≠ mask.testBit i) :=
  testBit_compute_winning_position hi

/-- On a free cell with nothing above it, the brute-force scan and the bit pattern of
`compute_winning_position` agree. -/
theorem scanWin_iff_aligned {p c r : Nat} (hc : c < 7) (hr : r < 6)
    (hG : ∀ n, p.testBit n = true → n < 49 ∧ n % 7 < 6)
    (hup : ¬ stone p (((r + c * 7 : Nat) : Int) + 1)) :
    scanWin (p ||| 2 ^ (r + c * 7)) (c : Int) (r : Int) = true ↔ aligned p (r + c * 7) := by
  have hv := @lineHasFour_iff p c r 0 1 hc hr hG (by norm_num) (by norm_num)
  have hh7 := @lineHasFour_iff p c r 1 0 hc hr hG (by norm_num) (by norm_num)
  have hd6 := @lineHasFour_iff p c r 1 (-1) hc hr hG (by norm_num) (by norm_num)
  have hd8 := @lineHasFour_iff p c r 1 1 hc hr hG (by norm_num) (by norm_num)
  unfold scanWin aligned
  simp only [Bool.or_eq_true]
  rw [hv, hh7, hd6, hd8]
  simp only [zero_mul, add_zero, zero_add, one_mul, Int.reduceNeg, Int.reduceAdd, or_assoc]
  apply or_congr _ Iff.rfl
  unfold windows
  simp only [mul_one, Int.reduceNeg, ← sub_eq_add_neg]
  constructor
  · rintro (h | h | h | h)
    · exact h
    · exact absurd h.2.2 hup
    · exact absurd h.1 hup
    · exact absurd h.1 hup
  · exact fun h => Or.inl h

theorem compute_winning_position_lt {pos mask : Nat} (hm : mask < 2 ^ 49) :
    compute_winning_position pos mask < 2 ^ 49 := by
  have h1 : compute_winning_position pos mask ≤ board_mask ^^^ mask := by
    unfold compute_winning_position
    exact Nat.and_le_right
  have h2 : board_mask ^^^ mask < 2 ^ 49 :=
    Nat.xor_lt_two_pow (by rw [board_mask_eq]; norm_num) hm
  omega

/-- In a well-formed position, the bit of a cell in `compute_winning_position` for stones of
the board says that the cell is free and that the scan finds an alignment through it. -/
theorem WellFormed.testBit_winning_cell {Q : position} (wf : WellFormed Q) {p : Nat}
    (hp : ∀ n, p.testBit n = true → Q.mask.testBit n = true) {c r : Nat} (hc : c < 7)
    (hr : r < 6) :
    (compute_winning_position p Q.mask).testBit (r + c * 7)
      = (!Q.mask.testBit (r + c * 7) && scanWin (p ||| 2 ^ (r + c * 7)) (c : Int) (r : Int)) := by
  have hb : board_mask.testBit (r + c * 7) = true := by
    rw [testBit_board_mask]
    simp only [decide_eq_true_eq]
    omega
  have hG : ∀ n, p.testBit n = true → n < 49 ∧ n % 7 < 6 := by
    intro n h
    have := hp n h
    rw [wf.testBit_mask] at this
    simp only [decide_eq_true_eq] at this
    have := height_le Q.mask (n / 7)
    omega
  rw [Bool.eq_iff_iff, testBit_compute_winning_position_aligned (by omega), hb]
  cases hm : Q.mask.testBit (r + c * 7)
  · have hup : ¬ stone p (((r + c * 7 : Nat) : Int) + 1) := by
      rintro ⟨-, h⟩
      have e : (((r + c * 7 : Nat) : Int) + 1).toNat = r + c * 7 + 1 := by omega
      rw [e] at h
      have h1 := hp _ h
      rw [wf.testBit_mask] at h1 hm
      simp only [decide_eq_true_eq, decide_eq_false_iff_not, not_and] at h1 hm
      have e1 : (r + c * 7) / 7 = c := by omega
      have e2 : (r + c * 7) % 7 = r := by omega
      rw [e1, e2] at hm
      have := hm (by omega)
      have hle := height_le Q.mask ((r + c * 7 + 1) / 7)
      by_cases h5 : r = 5
      · omega
      · have e3 : (r + c * 7 + 1) / 7 = c := by omega
        rw [e3] at h1
        omega
    simp only [Bool.not_false, Bool.true_and]
    rw [scanWin_iff_aligned hc hr hG hup]
    simp
  · simp

theorem boardCells_bits :
    boardCells.map (fun cell => cell.2 + cell.1 * 7)
      = (List.range 64).filter (fun n => decide (n < 49 ∧ n % 7 < 6)) := by
  decide

theorem mem_boardCells {cell : Nat × Nat} (h : cell ∈ boardCells) : cell.1 < 7 ∧ cell.2 < 6 := by
  unfold boardCells at h
  rw [List.mem_flatMap] at h
  obtain ⟨c, hc, h⟩ := h
  rw [List.mem_map] at h
  obtain ⟨r, hr, rfl⟩ := h
  exact ⟨List.mem_range.mp hc, List.mem_range.mp hr⟩

/-- The bits of a bitboard confined to the cells of the board are counted cell by cell. -/
theorem bitCount_eq_countP_cells {S : Nat}
    (hS : ∀ n, S.testBit n = true → n < 49 ∧ n % 7 < 6) :
    bitCount S = boardCells.countP (fun cell => S.testBit (cell.2 + cell.1 * 7)) := by
  have e : boardCells.countP (fun cell => S.testBit (cell.2 + cell.1 * 7))
      = (boardCells.map (fun cell => cell.2 + cell.1 * 7)).countP (fun n => S.testBit n) := by
    rw [List.countP_map]; rfl
  rw [e, boardCells_bits, List.countP_filter]
  unfold bitCount
  apply List.countP_congr
  intro n _
  cases h : S.testBit n
  · simp
  · have := hS n h
    simp [this]

/-- In a well-formed position, `popcount` of `compute_winning_position` is the number of free
cells where the scan finds an alignment. -/
theorem WellFormed.bitCount_winning {Q : position} (wf : WellFormed Q) {p : Nat}
    (hp : ∀ n, p.testBit n = true → Q.mask.testBit n = true) :
    bitCount (compute_winning_position p Q.mask) = winningCellCount p Q.mask := by
  have hS : ∀ n, (compute_winning_position p Q.mask).testBit n = true → n < 49 ∧ n % 7 < 6 := by
    intro n h
    have hlt : n < 49 := by
      by_contra hn
      have h2 : compute_winning_position p Q.mask < 2 ^ n :=
        lt_of_lt_of_le (compute_winning_position_lt wf.mask_lt)
          (Nat.pow_le_pow_right (by norm_num) (by omega))
      rw [Nat.testBit_lt_two_pow h2] at h
      exact Bool.noConfusion h
    have hne := testBit_compute_winning_position_free (by omega) h
    rw [testBit_board_mask, wf.testBit_mask] at hne
    refine ⟨hlt, ?_⟩
    by_contra h6
    apply hne
    have := height_le Q.mask (n / 7)
    have a1 : ¬ (n < 49 ∧ n % 7 < 6) := by omega
    have a2 : ¬ (n < 49 ∧ n % 7 < height Q.mask (n / 7)) := by omega
    simp [a1, a2]
  rw [bitCount_eq_countP_cells hS]
  unfold winningCellCount
  apply List.countP_congr
  intro cell hcell
  obtain ⟨h1, h2⟩ := mem_boardCells hcell
  simp only [HEIGHT]
  rw [wf.testBit_winning_cell hp h1 h2]

theorem windows_congr {B B' : Int → Prop} (h : ∀ t, t ≠ 0 → (B t ↔ B' t)) :
    windows B ↔ windows B' := by
  unfold windows
  rw [h 1 (by norm_num), h 2 (by norm_num), h 3 (by norm_num), h (-1) (by norm_num),
    h (-2) (by norm_num), h (-3) (by norm_num)]

theorem stone_or_two_pow {p i : Nat} {j : Int} (h : j ≠ (i : Int)) :
    stone (p ||| 2 ^ i) j ↔ stone p j := by
  unfold stone
  rw [Nat.testBit_or, Nat.testBit_two_pow]
  constructor
  · rintro ⟨h0, hb⟩
    have : ¬ i = j.toNat := by omega
    exact ⟨h0, by simpa [this] using hb⟩
  · rintro ⟨h0, hb⟩
    exact ⟨h0, by rw [hb]; rfl⟩

/-- The stone on the cell itself plays no part in the alignments looked for through the cell. -/
theorem aligned_or_two_pow (p i : Nat) : aligned (p ||| 2 ^ i) i ↔ aligned p i := by
  unfold aligned
  rw [stone_or_two_pow (by omega : (i : Int) - 1 ≠ i), stone_or_two_pow (by omega : (i : Int) - 2 ≠ i),
    stone_or_two_pow (by omega : (i : Int) - 3 ≠ i),
    windows_congr (fun t ht => stone_or_two_pow (p := p) (i := i) (j := (i : Int) + t * 7) (by omega)),
    windows_congr (fun t ht => stone_or_two_pow (p := p) (i := i) (j := (i : Int) + t * 6) (by omega)),
    windows_congr (fun t ht => stone_or_two_pow (p := p) (i := i) (j := (i : Int) + t * 8) (by omega))]

/-- The bits that `moveScore` counts: the winning cells after the move, and the cell of the
move itself when the move wins. -/
theorem WellFormed.testBit_moveScore_bits {P : position} (wf : WellFormed P) {col : Nat}
    (hc : col < WIDTH) (hp : canPlay P col = true) (n : Nat) :
    (compute_winning_position (P.current_position ||| 2 ^ (col * 7 + height P.mask col))
        P.mask).testBit n
      = ((compute_winning_position (P.current_position ||| 2 ^ (col * 7 + height P.mask col))
          (P.mask ||| 2 ^ (col * 7 + height P.mask col))).testBit n
        || (decide (n = col * 7 + height P.mask col) && isWinningMove P col)) := by
  have hh := (wf.canPlay_iff hc).mp hp
  have hc7 : col < 7 := hc
  have hor : P.mask ||| 2 ^ (col * 7 + height P.mask col) < 2 ^ 49 :=
    Nat.or_lt_two_pow wf.mask_lt (Nat.pow_lt_pow_right (by norm_num) (by omega))
  by_cases hn : n = col * 7 + height P.mask col
  · subst hn
    have h1 : (compute_winning_position (P.current_position ||| 2 ^ (col * 7 + height P.mask col))
        (P.mask ||| 2 ^ (col * 7 + height P.mask col))).testBit (col * 7 + height P.mask col)
        = false := by
      cases hb : (compute_winning_position
          (P.current_position ||| 2 ^ (col * 7 + height P.mask col))
          (P.mask ||| 2 ^ (col * 7 + height P.mask col))).testBit (col * 7 + height P.mask col)
      · rfl
      · exfalso
        have := testBit_compute_winning_position_free (by omega) hb
        apply this
        rw [testBit_board_mask, Nat.testBit_or, Nat.testBit_two_pow_self]
        have : col * 7 + height P.mask col < 49 ∧ (col * 7 + height P.mask col) % 7 < 6 := by
          omega
        simp [this]
    rw [h1, wf.isWinningMove_eq hc hp]
    simp only [decide_True, Bool.true_and, Bool.false_or]
    unfold winning_position
    rw [Bool.eq_iff_iff, testBit_compute_winning_position_aligned (by omega),
      testBit_compute_winning_position_aligned (by omega), aligned_or_two_pow]
  · simp only [hn, decide_False, Bool.false_and, Bool.or_false]
    by_cases h64 : n < 64
    · apply testBit_compute_winning_position_congr h64
      rw [Nat.testBit_or, Nat.testBit_two_pow]
      have : ¬ col * 7 + height P.mask col = n := fun h => hn h.symm
      simp [this]
    · have e : ∀ m, m < 2 ^ 49 → (compute_winning_position
          (P.current_position ||| 2 ^ (col * 7 + height P.mask col)) m).testBit n = false := by
        intro m hm
        apply Nat.testBit_lt_two_pow
        exact lt_of_lt_of_le (compute_winning_position_lt hm)
          (Nat.pow_le_pow_right (by norm_num) (by omega))
      rw [e _ wf.mask_lt, e _ hor]

/-- Claim C12, amended. In a reachable position, for the move in a playable
column `col` of the board, given as the single bit of its landing cell,
`moveScore(move)` is the number of distinct cells that are empty after the
move and that would complete an alignment of four for the player owning
`current_position | move`, plus one when the move itself is a winning move:
the cell of a winning move is counted as well. -/
theorem moveScore_counts_winning_cells (P : position) (hP : Reachable P) (col : Nat)
    (hc : col < WIDTH) (hp : canPlay P col = true) :
    moveScore P (2 ^ landingCell P col)
      = winningCellCount (P.current_position ||| 2 ^ landingCell P col)
          (P.mask ||| 2 ^ landingCell P col)
        + (if isWinningMove P col = true then 1 else 0) := by
  have wf := hP.wellFormed
  have hh := (wf.canPlay_iff hc).mp hp
  have hc7 : col < 7 := hc
  have wfQ := wf.after_playCol hc hp
  have hQm : (playCol P col).mask = P.mask ||| 2 ^ (col * 7 + height P.mask col) := by
    rw [wf.playCol_eq hc hp]
  have hsub : ∀ n, (P.current_position ||| 2 ^ (col * 7 + height P.mask col)).testBit n = true →
      (playCol P col).mask.testBit n = true := by
    intro n h
    rw [hQm]
    rw [Nat.testBit_or, Bool.or_eq_true] at h ⊢
    rcases h with h | h
    · exact Or.inl (wf.testBit_current h)
    · exact Or.inr h
  have hcount := wfQ.bitCount_winning hsub
  rw [hQm] at hcount
  have hbits := wf.testBit_moveScore_bits hc hp
  rw [wf.landingCell_eq hc]
  unfold moveScore
  rw [popcount_eq (lt_of_lt_of_le (compute_winning_position_lt wf.mask_lt) (by norm_num)),
    ← hcount]
  by_cases hw : isWinningMove P col = true
  · rw [if_pos hw]
    have e : compute_winning_position (P.current_position ||| 2 ^ (col * 7 + height P.mask col))
        P.mask
        = compute_winning_position (P.current_position ||| 2 ^ (col * 7 + height P.mask col))
            (P.mask ||| 2 ^ (col * 7 + height P.mask col))
          ||| 2 ^ (col * 7 + height P.mask col) := by
      apply Nat.eq_of_testBit_eq
      intro n
      rw [hbits n, hw, Nat.testBit_or, Nat.testBit_two_pow]
      by_cases hn : n = col * 7 + height P.mask col
      · subst hn; simp
      · have : ¬ col * 7 + height P.mask col = n := fun h => hn h.symm
        simp [hn, this]
    rw [e]
    apply bitCount_or_two_pow (by omega)
    have := hbits (col * 7 + height P.mask col)
    cases hb : (compute_winning_position
        (P.current_position ||| 2 ^ (col * 7 + height P.mask col))
        (P.mask ||| 2 ^ (col * 7 + height P.mask col))).testBit (col * 7 + height P.mask col)
    · rfl
    · exfalso
      have hfree := testBit_compute_winning_position_free (by omega) hb
      apply hfree
      rw [testBit_board_mask, Nat.testBit_or, Nat.testBit_two_pow_self]
      have : col * 7 + height P.mask col < 49 ∧ (col * 7 + height P.mask col) % 7 < 6 := by
        omega
      simp [this]
  · rw [if_neg hw, Nat.add_zero]
    have hw' : isWinningMove P col = false := by simpa using hw
    congr 1
    apply Nat.eq_of_testBit_eq
    intro n
    rw [hbits n, hw']
    simp

/-- Claim C12, amended, at the position after `"4455"` and its third column. -/
theorem moveScore_counts_winning_cells_witness :
    Reachable (playSeq position.empty "4455").2 ∧ 2 < WIDTH ∧
    canPlay (playSeq position.empty "4455").2 2 = true ∧
    moveScore (playSeq position.empty "4455").2 (2 ^ landingCell (playSeq position.empty "4455").2 2)
      = winningCellCount
          ((playSeq position.empty "4455").2.current_position
            ||| 2 ^ landingCell (playSeq position.empty "4455").2 2)
          ((playSeq position.empty "4455").2.mask
            ||| 2 ^ landingCell (playSeq position.empty "4455").2 2)
        + (if isWinningMove (playSeq position.empty "4455").2 2 = true then 1 else 0) :=
  ⟨reachable_playSeq _, by decide, by decide,
    moveScore_counts_winning_cells _ (reachable_playSeq _) 2 (by decide) (by decide)⟩

set_option maxRecDepth 100000 in
/-- Claim C12 as stated fails at the position after `"121212"` for the move in
the first column, a legal move that wins: after the move one cell is empty
and would complete an alignment for the player, and `moveScore` is `2`, as
the cell of the move is counted too. -/
theorem moveScore_counts_winning_move_cell :
    (playSeq position.empty "121212").1 = 6
    ∧ canPlay (playSeq position.empty "121212").2 0 = true
    ∧ (possible (playSeq position.empty "121212").2).testBit
        (landingCell (playSeq position.empty "121212").2 0) = true
    ∧ isWinningMove (playSeq position.empty "121212").2 0 = true
    ∧ moveScore (playSeq position.empty "121212").2
        (2 ^ landingCell (playSeq position.empty "121212").2 0) = 2
    ∧ winningCellCount
        ((playSeq position.empty "121212").2.current_position
          ||| 2 ^ landingCell (playSeq position.empty "121212").2 0)
        ((playSeq position.empty "121212").2.mask
          ||| 2 ^ landingCell (playSeq position.empty "121212").2 0) = 1
    ∧ moveScore (playSeq position.empty "121212").2
        (2 ^ landingCell (playSeq position.empty "121212").2 0)
      ≠ winningCellCount
        ((playSeq position.empty "121212").2.current_position
          ||| 2 ^ landingCell (playSeq position.empty "121212").2 0)
        ((playSeq position.empty "121212").2.mask
          ||| 2 ^ landingCell (playSeq position.empty "121212").2 0) := by
  decide

end ConnectFour
